import Mathlib

/-!
# Verification of the content compressor pipeline

A shallow embedding of `compressor.py`, a batch content-compilation tool:
per-article frontmatter parsing, MD5-based identifier assignment, image
compression and inlining, markdown image-path rewriting, and manifest
generation.  Machine integers are modelled as `Nat` with explicit reduction
modulo 2^32 where the MD5 algorithm wraps; fallible operations return
`Option` or `Except`.  Behaviour of the third-party libraries the script
calls (PIL, python-frontmatter, `datetime`) is modelled explicitly where the
script's control flow depends on it, with each model documented at its
definition.
-/

namespace Compressor

/-! ## Byte strings and UTF-8 -/

/-- UTF-8 encoding of a single Unicode scalar value. -/
def utf8EncodeChar (n : Nat) : List Nat :=
  if n < 128 then [n]
  else if n < 2048 then [192 + n / 64, 128 + n % 64]
  else if n < 65536 then [224 + n / 4096, 128 + n / 64 % 64, 128 + n % 64]
  else [240 + n / 262144, 128 + n / 4096 % 64, 128 + n / 64 % 64, 128 + n % 64]

/-- The byte string produced by Python's `str.encode('utf-8')`. -/
def strBytes (s : String) : List Nat := s.data.flatMap (fun c => utf8EncodeChar c.toNat)

/-! ## MD5 (RFC 1321), as used by `hashlib.md5` -/

/-- The 2^32 modulus for 32-bit arithmetic. -/
def M32 : Nat := 4294967296

/-- Left-rotate a 32-bit word by `n` bits. -/
def rotl32 (x n : Nat) : Nat :=
  ((x <<< n) % M32) ||| (x >>> (32 - n))

/-- Bitwise complement within 32 bits (the argument is always below 2^32). -/
def not32 (x : Nat) : Nat := 4294967295 - x

/-- The 64 MD5 sine-derived constants of RFC 1321. -/
def md5K : List Nat :=
  [0xd76aa478, 0xe8c7b756, 0x242070db, 0xc1bdceee,
   0xf57c0faf, 0x4787c62a, 0xa8304613, 0xfd469501,
   0x698098d8, 0x8b44f7af, 0xffff5bb1, 0x895cd7be,
   0x6b901122, 0xfd987193, 0xa679438e, 0x49b40821,
   0xf61e2562, 0xc040b340, 0x265e5a51, 0xe9b6c7aa,
   0xd62f105d, 0x02441453, 0xd8a1e681, 0xe7d3fbc8,
   0x21e1cde6, 0xc33707d6, 0xf4d50d87, 0x455a14ed,
   0xa9e3e905, 0xfcefa3f8, 0x676f02d9, 0x8d2a4c8a,
   0xfffa3942, 0x8771f681, 0x6d9d6122, 0xfde5380c,
   0xa4beea44, 0x4bdecfa9, 0xf6bb4b60, 0xbebfbc70,
   0x289b7ec6, 0xeaa127fa, 0xd4ef3085, 0x04881d05,
   0xd9d4d039, 0xe6db99e5, 0x1fa27cf8, 0xc4ac5665,
   0xf4292244, 0x432aff97, 0xab9423a7, 0xfc93a039,
   0x655b59c3, 0x8f0ccc92, 0xffeff47d, 0x85845dd1,
   0x6fa87e4f, 0xfe2ce6e0, 0xa3014314, 0x4e0811a1,
   0xf7537e82, 0xbd3af235, 0x2ad7d2bb, 0xeb86d391]

/-- The per-step left-rotation amounts of MD5. -/
def md5S : List Nat :=
  [7, 12, 17, 22, 7, 12, 17, 22, 7, 12, 17, 22, 7, 12, 17, 22,
   5, 9, 14, 20, 5, 9, 14, 20, 5, 9, 14, 20, 5, 9, 14, 20,
   4, 11, 16, 23, 4, 11, 16, 23, 4, 11, 16, 23, 4, 11, 16, 23,
   6, 10, 15, 21, 6, 10, 15, 21, 6, 10, 15, 21, 6, 10, 15, 21]

/-- MD5 padding: append 0x80, zero bytes until the length is 56 mod 64, then
the original bit length as 8 little-endian bytes. -/
def md5Pad (msg : List Nat) : List Nat :=
  let len := msg.length
  let padLen := (55 + 64 - len % 64) % 64 + 1
  let bitLen := (len * 8) % (2 ^ 64)
  msg ++ (0x80 :: List.replicate (padLen - 1) 0) ++
    (List.range 8).map (fun i => bitLen >>> (8 * i) % 256)

/-- Read the i-th little-endian 32-bit word of a 64-byte block. -/
def blockWord (blk : List Nat) (i : Nat) : Nat :=
  blk.getD (4 * i) 0 + 256 * blk.getD (4 * i + 1) 0 +
    65536 * blk.getD (4 * i + 2) 0 + 16777216 * blk.getD (4 * i + 3) 0

/-- One MD5 step: round function, message-word schedule and state rotation. -/
def md5Step (blk : List Nat) (st : Nat × Nat × Nat × Nat) (i : Nat) :
    Nat × Nat × Nat × Nat :=
  let (a, b, c, d) := st
  let f :=
    if i < 16 then (b &&& c) ||| (not32 b &&& d)
    else if i < 32 then (d &&& b) ||| (not32 d &&& c)
    else if i < 48 then b ^^^ c ^^^ d
    else c ^^^ (b ||| not32 d)
  let g :=
    if i < 16 then i
    else if i < 32 then (5 * i + 1) % 16
    else if i < 48 then (3 * i + 5) % 16
    else (7 * i) % 16
  let newB := (b + rotl32 ((a + f + md5K.getD i 0 + blockWord blk g) % M32)
    (md5S.getD i 0)) % M32
  (d, newB, b, c)

/-- Process one 64-byte block, updating the four-word state. -/
def md5Block (st : Nat × Nat × Nat × Nat) (blk : List Nat) :
    Nat × Nat × Nat × Nat :=
  let (a0, b0, c0, d0) := st
  let (a, b, c, d) := (List.range 64).foldl (md5Step blk) (a0, b0, c0, d0)
  ((a0 + a) % M32, (b0 + b) % M32, (c0 + c) % M32, (d0 + d) % M32)

/-- Serialize a 32-bit word as 4 little-endian bytes. -/
def wordLE (x : Nat) : List Nat :=
  [x % 256, x >>> 8 % 256, x >>> 16 % 256, x >>> 24 % 256]

/-- The 16-byte MD5 digest of a byte string. -/
def md5Bytes (msg : List Nat) : List Nat :=
  let padded := md5Pad msg
  let n := padded.length / 64
  let final := (List.range n).foldl
    (fun st i => md5Block st ((padded.drop (64 * i)).take 64))
    (0x67452301, 0xefcdab89, 0x98badcfe, 0x10325476)
  wordLE final.1 ++ wordLE final.2.1 ++ wordLE final.2.2.1 ++ wordLE final.2.2.2

/-- Lowercase hexadecimal digit for a value below 16. -/
def hexDigit (n : Nat) : Char :=
  if n < 10 then Char.ofNat (48 + n) else Char.ofNat (87 + n % 16)

/-- Lowercase hexadecimal rendering of a byte string, two digits per byte. -/
def bytesToHex (bs : List Nat) : List Char :=
  bs.flatMap (fun b => [hexDigit (b / 16 % 16), hexDigit (b % 16)])

/-- The lowercase-hex MD5 digest of a byte string, as Python's `hexdigest()`. -/
def md5Hex (msg : List Nat) : List Char := bytesToHex (md5Bytes msg)

/-- Sanity anchor: the RFC 1321 test vector for the empty message. -/
example : String.mk (md5Hex []) = "d41d8cd98f00b204e9800998ecf8427e" := by decide

/-- Sanity anchor: the RFC 1321 test vector for "abc". -/
example : String.mk (md5Hex (strBytes "abc")) = "900150983cd24fb0d6963f7d28e17f72" := by
  decide

/-! ## Identifier assignment (`process_article`, lines 77-79) -/

/-- The identifier computed by the script:
`hashlib.md5((folder_name + raw_content).encode('utf-8')).hexdigest()[:12]`.
A pure function of the folder name and raw content, hence deterministic
across runs. -/
def uniqueId (folderName rawContent : String) : String :=
  String.mk ((md5Hex (strBytes (folderName ++ rawContent))).take 12)

/-- Modelled from the spec: the identifier contract of section 4.2 — the
first 12 hex characters of the MD5 hash over the concatenation of the
article's folder name and its raw, unparsed file content. -/
def specIdentifier (folderName rawContent : String) : String :=
  String.mk ((md5Hex (strBytes folderName ++ strBytes rawContent)).take 12)

/-- Whether a character is a lowercase hexadecimal digit. -/
def isHexDigitChar (c : Char) : Bool := "0123456789abcdef".data.contains c

theorem hexDigit_isHex : ∀ n < 16, isHexDigitChar (hexDigit n) = true := by decide

theorem strBytes_append (a b : String) :
    strBytes (a ++ b) = strBytes a ++ strBytes b := by
  simp [strBytes, String.data_append]

theorem md5Bytes_length (msg : List Nat) : (md5Bytes msg).length = 16 := by
  simp [md5Bytes, wordLE]

theorem bytesToHex_length (bs : List Nat) :
    (bytesToHex bs).length = 2 * bs.length := by
  induction bs with
  | nil => simp [bytesToHex]
  | cons b bs ih =>
      simp only [bytesToHex, List.flatMap_cons] at ih ⊢
      simp [ih]; omega

theorem md5Hex_length (msg : List Nat) : (md5Hex msg).length = 32 := by
  simp [md5Hex, bytesToHex_length, md5Bytes_length]

theorem bytesToHex_isHex (bs : List Nat) :
    ∀ c ∈ bytesToHex bs, isHexDigitChar c = true := by
  intro c hc
  simp only [bytesToHex, List.mem_flatMap, List.mem_cons, List.not_mem_nil,
    or_false] at hc
  obtain ⟨b, _, h | h⟩ := hc
  · exact h ▸ hexDigit_isHex _ (Nat.mod_lt _ (by norm_num))
  · exact h ▸ hexDigit_isHex _ (Nat.mod_lt _ (by norm_num))

/-- C1: the assigned identifier equals the first 12 hex characters of the MD5
hash of the concatenation of the folder name and the raw file content; it is
always a 12-character string of (lowercase) hexadecimal characters.  Being a
pure function of the folder name and the input bytes, it is the same string
on every run for fixed inputs. -/
theorem uniqueId_is_md5_prefix (folderName rawContent : String) :
    uniqueId folderName rawContent = specIdentifier folderName rawContent ∧
    (uniqueId folderName rawContent).length = 12 ∧
    ∀ c ∈ (uniqueId folderName rawContent).data, isHexDigitChar c = true := by
  refine ⟨by simp [uniqueId, specIdentifier, strBytes_append], ?_, ?_⟩
  · show ((md5Hex (strBytes (folderName ++ rawContent))).take 12).length = 12
    simp [List.length_take, md5Hex_length]
  · intro c hc
    have hc' : c ∈ md5Hex (strBytes (folderName ++ rawContent)) :=
      List.take_subset _ _ hc
    exact bytesToHex_isHex _ c hc'

/-! ## Markdown image reference rewriting (`replace_image_paths`, lines 42-50)

The script substitutes every match of the regular expression
`!\[(.*?)\]\((.*?)\)` (lazy groups; `.` does not match a newline),
left to right, replacing the path group by `assets.get(basename(path), path)`.
The scanner below implements exactly those matching semantics on character
lists: at each position a match starts with "![", the alt group extends to
the first "](" after which a path group closed by ')' (with no intervening
newline) exists, and the path group extends to the first ')'. -/

/-- The filename portion of a path, as `os.path.basename` (POSIX): everything
after the last '/'. -/
def basenameChars (p : List Char) : List Char :=
  (p.reverse.takeWhile (fun c => c != '/')).reverse

/-- Dictionary lookup in the asset map (`assets.get`). -/
def lookupAsset (assets : List (List Char × List Char)) (k : List Char) :
    Option (List Char) :=
  (assets.find? (fun q => q.1 == k)).map (fun q => q.2)

/-- Match the lazy group `(.*?)\)`: the shortest prefix of non-newline
characters followed by ')'.  Returns the group and the remainder after the
')'; fails if a newline or the end is reached first. -/
def findPathSplit : List Char → Option (List Char × List Char)
  | [] => none
  | c :: rest =>
    if c = '\n' then none
    else if c = ')' then some ([], rest)
    else (findPathSplit rest).map (fun pr => (c :: pr.1, pr.2))

/-- Match `(.*?)\]\((.*?)\)` at the start of the input (i.e. the regex after
its leading "!["): the alt group extends to the first "](" from which a path
group also matches; on failure of the path part the engine backtracks and the
alt group grows to the next "](".  Returns (alt, path, remainder). -/
def matchImg : List Char → Option (List Char × List Char × List Char)
  | [] => none
  | c :: rest =>
    if c = '\n' then none
    else if c = ']' ∧ rest.head? = some '(' then
      match findPathSplit rest.tail with
      | some (p, r) => some ([], p, r)
      | none => (matchImg rest).map (fun x => (c :: x.1, x.2))
    else (matchImg rest).map (fun x => (c :: x.1, x.2))

theorem findPathSplit_eq {cs p r : List Char}
    (h : findPathSplit cs = some (p, r)) : cs = p ++ ')' :: r := by
  induction cs generalizing p with
  | nil => simp [findPathSplit] at h
  | cons c rest ih =>
      simp only [findPathSplit] at h
      by_cases hn : c = '\n'
      · simp [hn] at h
      rw [if_neg hn] at h
      by_cases hp : c = ')'
      · rw [if_pos hp] at h
        simp only [Option.some.injEq, Prod.mk.injEq] at h
        obtain ⟨h1, h2⟩ := h
        subst h1; subst h2
        simp [hp]
      · rw [if_neg hp] at h
        rw [Option.map_eq_some'] at h
        obtain ⟨⟨q, s⟩, hq, heq⟩ := h
        simp only [Prod.mk.injEq] at heq
        obtain ⟨h1, h2⟩ := heq
        subst h1; subst h2
        rw [ih hq]
        simp

theorem matchImg_eq {cs a p r : List Char}
    (h : matchImg cs = some (a, p, r)) :
    cs = a ++ ']' :: '(' :: (p ++ ')' :: r) := by
  induction cs generalizing a with
  | nil => simp [matchImg] at h
  | cons c rest ih =>
      simp only [matchImg] at h
      by_cases hn : c = '\n'
      · simp [hn] at h
      rw [if_neg hn] at h
      by_cases hb : c = ']' ∧ rest.head? = some '('
      · rw [if_pos hb] at h
        obtain ⟨hb1, hb2⟩ := hb
        subst hb1
        cases rest with
        | nil => simp at hb2
        | cons c2 t =>
            have hc2 : c2 = '(' := by simpa using hb2
            subst hc2
            simp only [List.tail_cons] at h
            cases hf : findPathSplit t with
            | some pr =>
                obtain ⟨p2, r2⟩ := pr
                rw [hf] at h
                simp only [Option.some.injEq, Prod.mk.injEq] at h
                obtain ⟨h1, h2, h3⟩ := h
                subst h1; subst h2; subst h3
                simpa using findPathSplit_eq hf
            | none =>
                rw [hf] at h
                rw [Option.map_eq_some'] at h
                obtain ⟨⟨a2, p2, r2⟩, ha2, h1⟩ := h
                simp only [Prod.mk.injEq] at h1
                obtain ⟨h1, h2, h3⟩ := h1
                subst h2; subst h3
                have := ih ha2
                rw [← h1]
                simpa using this
      · rw [if_neg hb] at h
        rw [Option.map_eq_some'] at h
        obtain ⟨⟨a2, p2, r2⟩, ha2, h1⟩ := h
        simp only [Prod.mk.injEq] at h1
        obtain ⟨h1, h2, h3⟩ := h1
        subst h2; subst h3
        have := ih ha2
        rw [← h1]
        simpa using this

theorem matchImg_length {cs a p r : List Char}
    (h : matchImg cs = some (a, p, r)) : r.length + 3 ≤ cs.length := by
  rw [matchImg_eq h]
  simp
  omega

/-- The left-to-right substitution pass of `re.sub`, with explicit structural
fuel: at each position, if a match of the image regex starts there, emit the
replacement `![alt](assets.get(basename(path), path))` and continue after the
match; otherwise emit the character and move one position right.  Every step
consumes at least one input character, so fuel equal to the input length (as
supplied by `replaceScan` below) always suffices and the fuel case `0` with a
nonempty input is never reached. -/
def replaceScanF (assets : List (List Char × List Char)) :
    Nat → List Char → List Char
  | _, [] => []
  | 0, cs => cs
  | fuel+1, c :: rest =>
    if c = '!' ∧ rest.head? = some '[' then
      match matchImg rest.tail with
      | some (a, p, r) =>
          '!' :: '[' :: (a ++ ']' :: '(' ::
            ((lookupAsset assets (basenameChars p)).getD p ++ ')' ::
              replaceScanF assets fuel r))
      | none => c :: replaceScanF assets fuel rest
    else c :: replaceScanF assets fuel rest

/-- The substitution pass at its canonical fuel. -/
def replaceScan (assets : List (List Char × List Char)) (cs : List Char) :
    List Char :=
  replaceScanF assets cs.length cs

/-- The script's `replace_image_paths(content, assets)`. -/
def replace_image_paths (content : String) (assets : List (String × String)) :
    String :=
  String.mk (replaceScan (assets.map (fun q => (q.1.data, q.2.data))) content.data)

theorem replaceScanF_nil (assets : List (List Char × List Char)) (fuel : Nat) :
    replaceScanF assets fuel [] = [] := by
  cases fuel <;> rfl

theorem replaceScanF_cons (assets : List (List Char × List Char)) (fuel : Nat)
    (c : Char) (rest : List Char) :
    replaceScanF assets (fuel + 1) (c :: rest) =
      if c = '!' ∧ rest.head? = some '[' then
        match matchImg rest.tail with
        | some (a, p, r) =>
            '!' :: '[' :: (a ++ ']' :: '(' ::
              ((lookupAsset assets (basenameChars p)).getD p ++ ')' ::
                replaceScanF assets fuel r))
        | none => c :: replaceScanF assets fuel rest
      else c :: replaceScanF assets fuel rest := rfl

theorem replaceScanF_img {rest2 a p r : List Char}
    (assets : List (List Char × List Char)) (fuel : Nat)
    (h : matchImg rest2 = some (a, p, r)) :
    replaceScanF assets (fuel + 1) ('!' :: '[' :: rest2) =
      '!' :: '[' :: (a ++ ']' :: '(' ::
        ((lookupAsset assets (basenameChars p)).getD p ++ ')' ::
          replaceScanF assets fuel r)) := by
  rw [replaceScanF_cons, if_pos ⟨rfl, rfl⟩]
  simp only [List.tail_cons, h]

theorem replaceScanF_noimg {rest2 : List Char}
    (assets : List (List Char × List Char)) (fuel : Nat)
    (h : matchImg rest2 = none) :
    replaceScanF assets (fuel + 1) ('!' :: '[' :: rest2) =
      '!' :: replaceScanF assets fuel ('[' :: rest2) := by
  rw [replaceScanF_cons, if_pos ⟨rfl, rfl⟩]
  simp only [List.tail_cons, h]

theorem replaceScanF_cons_ne {c : Char} {rest : List Char}
    (assets : List (List Char × List Char)) (fuel : Nat) (hc : c ≠ '!') :
    replaceScanF assets (fuel + 1) (c :: rest) =
      c :: replaceScanF assets fuel rest := by
  rw [replaceScanF_cons, if_neg (fun hcont => hc hcont.1)]

theorem replaceScanF_bang_nil (assets : List (List Char × List Char))
    (fuel : Nat) :
    replaceScanF assets (fuel + 1) ['!'] = ['!'] := by
  rw [replaceScanF_cons, if_neg (fun hcont => by simpa using hcont.2)]
  rw [replaceScanF_nil]

theorem replaceScanF_bang_ne {c : Char} {rest : List Char}
    (assets : List (List Char × List Char)) (fuel : Nat) (hc : c ≠ '[') :
    replaceScanF assets (fuel + 1) ('!' :: c :: rest) =
      '!' :: replaceScanF assets fuel (c :: rest) := by
  rw [replaceScanF_cons, if_neg (fun hcont => hc (by simpa using hcont.2))]

theorem replaceScanF_congr (assets : List (List Char × List Char)) :
    ∀ fuel fuel' cs, cs.length ≤ fuel → cs.length ≤ fuel' →
      replaceScanF assets fuel cs = replaceScanF assets fuel' cs := by
  intro fuel
  induction fuel with
  | zero =>
      intro fuel' cs h h'
      cases cs with
      | nil => rw [replaceScanF_nil, replaceScanF_nil]
      | cons c rest => simp at h
  | succ n ih =>
      intro fuel' cs h h'
      cases cs with
      | nil => rw [replaceScanF_nil, replaceScanF_nil]
      | cons c rest =>
          cases fuel' with
          | zero => simp at h'
          | succ n' =>
              by_cases hc : c = '!'
              · subst hc
                cases rest with
                | nil =>
                    rw [replaceScanF_bang_nil, replaceScanF_bang_nil]
                | cons c2 rest2 =>
                    by_cases hc2 : c2 = '['
                    · subst hc2
                      cases hm : matchImg rest2 with
                      | some x =>
                          obtain ⟨a, p, r⟩ := x
                          rw [replaceScanF_img _ _ hm, replaceScanF_img _ _ hm]
                          have hb := matchImg_length hm
                          simp at h h'
                          rw [ih n' r (by omega) (by omega)]
                      | none =>
                          rw [replaceScanF_noimg _ _ hm, replaceScanF_noimg _ _ hm]
                          simp at h h'
                          rw [ih n' ('[' :: rest2) (by simp; omega) (by simp; omega)]
                    · rw [replaceScanF_bang_ne _ _ hc2, replaceScanF_bang_ne _ _ hc2]
                      simp at h h'
                      rw [ih n' (c2 :: rest2) (by simp; omega) (by simp; omega)]
              · rw [replaceScanF_cons_ne _ _ hc, replaceScanF_cons_ne _ _ hc]
                simp at h h'
                rw [ih n' rest (by omega) (by omega)]

theorem replaceScan_nil (assets : List (List Char × List Char)) :
    replaceScan assets [] = [] := rfl

theorem replaceScan_img {rest2 a p r : List Char}
    (assets : List (List Char × List Char))
    (h : matchImg rest2 = some (a, p, r)) :
    replaceScan assets ('!' :: '[' :: rest2) =
      '!' :: '[' :: (a ++ ']' :: '(' ::
        ((lookupAsset assets (basenameChars p)).getD p ++ ')' ::
          replaceScan assets r)) := by
  show replaceScanF assets (rest2.length + 1 + 1) ('!' :: '[' :: rest2) = _
  rw [replaceScanF_img _ _ h]
  have hb := matchImg_length h
  rw [replaceScanF_congr assets (rest2.length + 1) r.length r (by omega) le_rfl]
  rfl

theorem replaceScan_noimg {rest2 : List Char}
    (assets : List (List Char × List Char)) (h : matchImg rest2 = none) :
    replaceScan assets ('!' :: '[' :: rest2) =
      '!' :: replaceScan assets ('[' :: rest2) := by
  show replaceScanF assets (rest2.length + 1 + 1) ('!' :: '[' :: rest2) = _
  rw [replaceScanF_noimg _ _ h]
  rfl

theorem replaceScan_cons_ne {c : Char} {rest : List Char}
    (assets : List (List Char × List Char)) (hc : c ≠ '!') :
    replaceScan assets (c :: rest) = c :: replaceScan assets rest := by
  show replaceScanF assets (rest.length + 1) (c :: rest) = _
  rw [replaceScanF_cons_ne _ _ hc]
  rfl

theorem replaceScan_bang_nil (assets : List (List Char × List Char)) :
    replaceScan assets ['!'] = ['!'] := by
  show replaceScanF assets 1 ['!'] = ['!']
  rw [replaceScanF_bang_nil]

theorem replaceScan_bang_ne {c : Char} {rest : List Char}
    (assets : List (List Char × List Char)) (hc : c ≠ '[') :
    replaceScan assets ('!' :: c :: rest) = '!' :: replaceScan assets (c :: rest) := by
  show replaceScanF assets (rest.length + 1 + 1) ('!' :: c :: rest) = _
  rw [replaceScanF_bang_ne _ _ hc]
  rfl

theorem replaceScan_empty_assets :
    ∀ n (cs : List Char), cs.length ≤ n → replaceScan [] cs = cs := by
  intro n
  induction n with
  | zero =>
      intro cs h
      cases cs with
      | nil => exact replaceScan_nil []
      | cons c rest => simp at h
  | succ n ih =>
      intro cs hlen
      cases cs with
      | nil => exact replaceScan_nil []
      | cons c rest =>
          by_cases hc : c = '!'
          · subst hc
            cases rest with
            | nil => exact replaceScan_bang_nil []
            | cons c2 rest2 =>
                by_cases hc2 : c2 = '['
                · subst hc2
                  cases hm : matchImg rest2 with
                  | some x =>
                      obtain ⟨a, p, r⟩ := x
                      rw [replaceScan_img _ hm]
                      have hlr : r.length ≤ n := by
                        have := matchImg_length hm
                        simp at hlen
                        omega
                      rw [ih r hlr, matchImg_eq hm]
                      simp [lookupAsset]
                  | none =>
                      rw [replaceScan_noimg _ hm]
                      have : ('[' :: rest2).length ≤ n := by
                        simp at hlen ⊢
                        omega
                      rw [ih _ this]
                · rw [replaceScan_bang_ne _ hc2]
                  have : (c2 :: rest2).length ≤ n := by
                    simp at hlen ⊢
                    omega
                  rw [ih _ this]
          · rw [replaceScan_cons_ne _ hc]
            have : rest.length ≤ n := by
              simp at hlen
              omega
            rw [ih _ this]

/-- C9: rewriting image paths with an empty asset map returns the markdown
body unchanged — the substitution pass is the identity when no asset can
match, because an unmatched reference is reassembled from its own alt text
and path and all other characters are copied verbatim. -/
theorem replace_image_paths_empty_map (body : String) :
    replace_image_paths body [] = body := by
  show String.mk (replaceScan [] body.data) = body
  rw [replaceScan_empty_assets body.data.length body.data le_rfl]

/-! ### Segment views of markdown bodies

A markdown body is viewed as a sequence of segments: plain-text runs and
well-formed inline image references `![alt](path)`.  Well-formedness pins
down exactly the bodies on which the regex scan is unambiguous: text runs
contain no "![" and do not end in '!', alt groups contain no newline and no
"](", path groups contain no newline and no ')'. -/

/-- Whether the two characters x, y occur adjacently (in this order). -/
def hasPair (x y : Char) : List Char → Bool
  | [] => false
  | [_] => false
  | a :: b :: rest => (a == x && b == y) || hasPair x y (b :: rest)

/-- A segment of a markdown body: a plain-text run or an image reference. -/
inductive Seg where
  | text (s : List Char)
  | img (alt path : List Char)
deriving DecidableEq

/-- The characters of a segment. -/
def renderSeg : Seg → List Char
  | .text s => s
  | .img a p => '!' :: '[' :: (a ++ ']' :: '(' :: (p ++ [')']))

/-- The characters of a segment sequence. -/
def render (l : List Seg) : List Char := l.flatMap renderSeg

/-- Well-formedness of a segment (see the section comment). -/
def wfSeg : Seg → Bool
  | .text s => !hasPair '!' '[' s && s.getLast? != some '!'
  | .img a p => !a.contains '\n' && !hasPair ']' '(' a &&
      !p.contains '\n' && !p.contains ')'

/-- The per-reference substitution the script's contract describes: an image
reference whose path's filename is a key of the asset map has its path
replaced by the mapped data URI (alt text preserved); any other segment is
unchanged. -/
def substSeg (assets : List (List Char × List Char)) : Seg → Seg
  | .text s => .text s
  | .img a p => .img a ((lookupAsset assets (basenameChars p)).getD p)

theorem hasPair_tail {x y a : Char} {rest : List Char}
    (h : hasPair x y (a :: rest) = false) : hasPair x y rest = false := by
  cases rest with
  | nil => rfl
  | cons b t =>
      simp only [hasPair, Bool.or_eq_false_iff] at h
      exact h.2

theorem findPathSplit_cons (c : Char) (rest : List Char) :
    findPathSplit (c :: rest) =
      if c = '\n' then none
      else if c = ')' then some ([], rest)
      else (findPathSplit rest).map (fun pr => (c :: pr.1, pr.2)) := rfl

theorem matchImg_cons (c : Char) (rest : List Char) :
    matchImg (c :: rest) =
      if c = '\n' then none
      else if c = ']' ∧ rest.head? = some '(' then
        match findPathSplit rest.tail with
        | some (p, r) => some ([], p, r)
        | none => (matchImg rest).map (fun x => (c :: x.1, x.2))
      else (matchImg rest).map (fun x => (c :: x.1, x.2)) := rfl

theorem findPathSplit_of_wf {p : List Char} (rest : List Char)
    (hn : p.contains '\n' = false) (hp : p.contains ')' = false) :
    findPathSplit (p ++ ')' :: rest) = some (p, rest) := by
  induction p with
  | nil =>
      rw [List.nil_append, findPathSplit_cons]
      rw [if_neg (by decide), if_pos rfl]
  | cons c t ih =>
      simp only [List.contains_cons, Bool.or_eq_false_iff] at hn hp
      have hcn : ¬(c = '\n') := by
        intro hcontra
        subst hcontra
        simp at hn
      have hcp : ¬(c = ')') := by
        intro hcontra
        subst hcontra
        simp at hp
      rw [List.cons_append, findPathSplit_cons, if_neg hcn, if_neg hcp,
        ih hn.2 hp.2]
      rfl

theorem matchImg_of_wf {a p : List Char} (rest : List Char)
    (han : a.contains '\n' = false) (hap : hasPair ']' '(' a = false)
    (hpn : p.contains '\n' = false) (hpp : p.contains ')' = false) :
    matchImg (a ++ ']' :: '(' :: (p ++ ')' :: rest)) = some (a, p, rest) := by
  induction a with
  | nil =>
      rw [List.nil_append, matchImg_cons]
      rw [if_neg (by decide), if_pos ⟨rfl, rfl⟩]
      simp only [List.tail_cons]
      rw [findPathSplit_of_wf rest hpn hpp]
  | cons c t ih =>
      simp only [List.contains_cons, Bool.or_eq_false_iff] at han
      have hcn : ¬(c = '\n') := by
        intro hcontra
        subst hcontra
        simp at han
      have hcond : ¬(c = ']' ∧ (t ++ ']' :: '(' :: (p ++ ')' :: rest)).head? = some '(') := by
        rintro ⟨hc, hhead⟩
        subst hc
        cases t with
        | nil => simp at hhead
        | cons c2 t2 =>
            simp at hhead
            subst hhead
            simp [hasPair] at hap
      rw [List.cons_append, matchImg_cons, if_neg hcn, if_neg hcond,
        ih han.2 (hasPair_tail hap)]
      rfl

theorem replaceScan_text {t : List Char}
    (assets : List (List Char × List Char)) (rest : List Char)
    (hwf : wfSeg (.text t) = true) :
    replaceScan assets (t ++ rest) = t ++ replaceScan assets rest := by
  induction t with
  | nil => simp
  | cons c t ih =>
      simp only [wfSeg, Bool.and_eq_true, Bool.not_eq_true',
        bne_iff_ne, ne_eq] at hwf
      obtain ⟨hpair, hlast⟩ := hwf
      by_cases hc : c = '!'
      · subst hc
        cases t with
        | nil => simp at hlast
        | cons c2 t2 =>
            have hc2 : c2 ≠ '[' := by
              intro hcontra
              subst hcontra
              simp [hasPair] at hpair
            simp only [List.cons_append]
            rw [replaceScan_bang_ne _ hc2]
            have hwf2 : wfSeg (.text (c2 :: t2)) = true := by
              simp only [wfSeg, Bool.and_eq_true, Bool.not_eq_true',
                bne_iff_ne, ne_eq]
              refine ⟨hasPair_tail hpair, ?_⟩
              simpa [List.getLast?] using hlast
            have := ih hwf2
            simp only [List.cons_append] at this
            rw [this]
      · simp only [List.cons_append]
        rw [replaceScan_cons_ne _ hc]
        cases t with
        | nil => simp
        | cons c2 t2 =>
            have hwf2 : wfSeg (.text (c2 :: t2)) = true := by
              simp only [wfSeg, Bool.and_eq_true, Bool.not_eq_true',
                bne_iff_ne, ne_eq]
              refine ⟨hasPair_tail hpair, ?_⟩
              simpa [List.getLast?] using hlast
            rw [ih hwf2]

theorem replaceScan_segments (assets : List (List Char × List Char))
    (segs : List Seg) (h : ∀ s ∈ segs, wfSeg s = true) :
    replaceScan assets (render segs) = render (segs.map (substSeg assets)) := by
  induction segs with
  | nil => simp [render, replaceScan_nil]
  | cons s segs ih =>
      have hs := h s (List.mem_cons_self s segs)
      have hrest : ∀ q ∈ segs, wfSeg q = true := fun q hq => h q (List.mem_cons_of_mem _ hq)
      cases s with
      | text t =>
          simp only [render, List.flatMap_cons, renderSeg, substSeg, List.map_cons]
          rw [replaceScan_text assets _ hs]
          rw [← render, ← render, ih hrest]
      | img a p =>
          simp only [wfSeg, Bool.and_eq_true, Bool.not_eq_true'] at hs
          obtain ⟨⟨⟨han, hap⟩, hpn⟩, hpp⟩ := hs
          simp only [render, List.flatMap_cons, renderSeg, substSeg, List.map_cons]
          have harr : ('!' :: '[' :: (a ++ ']' :: '(' :: (p ++ [')']))) ++ segs.flatMap renderSeg =
              '!' :: '[' :: (a ++ ']' :: '(' :: (p ++ ')' :: segs.flatMap renderSeg)) := by
            simp
          rw [harr]
          rw [replaceScan_img assets (matchImg_of_wf _ han hap hpn hpp)]
          rw [← render, ih hrest, render]
          simp

/-- C3: on a body decomposed into well-formed text runs and inline image
references, the rewriting pass maps each reference `![alt](path)` to
`![alt](assets[basename(path)])` when the filename portion of the path is a
key of the asset map, leaves references with unknown filenames byte-identical
(the unmatched reference is reassembled from its own groups), preserves every
alt text, and copies all text outside image references unchanged. -/
theorem replace_image_paths_spec (assets : List (String × String))
    (segs : List Seg) (h : ∀ s ∈ segs, wfSeg s = true) :
    replace_image_paths ⟨render segs⟩ assets =
      ⟨render (segs.map (substSeg (assets.map (fun q => (q.1.data, q.2.data)))))⟩ := by
  show String.mk (replaceScan _ (render segs)) = _
  rw [replaceScan_segments _ segs h]

/-- Witness for C3 at a concrete body with one matching and one non-matching
reference: only the matching one is rewritten. -/
theorem replace_image_paths_spec_witness :
    replace_image_paths
        ⟨render [Seg.text "Intro ".data,
                 Seg.img "x".data "images/a.png".data,
                 Seg.text " mid ".data,
                 Seg.img "y".data "missing.jpg".data]⟩
        [("a.png", "data:image/png;base64,QQ==")] =
      ⟨render ([Seg.text "Intro ".data,
                Seg.img "x".data "images/a.png".data,
                Seg.text " mid ".data,
                Seg.img "y".data "missing.jpg".data].map
        (substSeg ([("a.png", "data:image/png;base64,QQ==")].map
          (fun q => (q.1.data, q.2.data))))) ⟩ :=
  replace_image_paths_spec _ _ (by decide)

/-- Readability check of the same fact at the string level. -/
example :
    replace_image_paths "Intro ![x](images/a.png) mid ![y](missing.jpg)"
        [("a.png", "data:image/png;base64,QQ==")] =
      "Intro ![x](data:image/png;base64,QQ==) mid ![y](missing.jpg)" := by
  decide

/-! ## Metadata values, date serialization and parsing -/

/-- A metadata value: a string, a date object (as produced by YAML for
unquoted ISO-date scalars), or a list of strings (the default for tags). -/
inductive Value where
  | vStr (s : String)
  | vDate (y m d : Nat)
  | vList (l : List String)
deriving DecidableEq

/-- Two-digit zero padding. -/
def pad2 (n : Nat) : String := if n < 10 then "0" ++ toString n else toString n

/-- Four-digit zero padding. -/
def pad4 (n : Nat) : String :=
  if n < 10 then "000" ++ toString n
  else if n < 100 then "00" ++ toString n
  else if n < 1000 then "0" ++ toString n
  else toString n

/-- Models `datetime.date.isoformat()`: zero-padded YYYY-MM-DD. -/
def isoDate (y m d : Nat) : String := pad4 y ++ "-" ++ pad2 m ++ "-" ++ pad2 d

/-- The script's `serialize_date`: date objects become ISO-8601 strings, all
other values pass through unchanged. -/
def serialize_date : Value → Value
  | .vDate y m d => .vStr (isoDate y m d)
  | v => v

/-- Article metadata, a string-keyed mapping. -/
abbrev Metadata := List (String × Value)

/-- Python `dict.get(k)`: the value at key `k`, if present. -/
def mget (m : Metadata) (k : String) : Option Value :=
  (m.find? (fun q => q.1 == k)).map (fun q => q.2)

/-- Python `d[k] = v`: replace in place if the key exists, else append. -/
def mput (m : Metadata) (k : String) (v : Value) : Metadata :=
  if m.any (fun q => q.1 == k) then
    m.map (fun q => if q.1 == k then (k, v) else q)
  else m ++ [(k, v)]

/-- Python truthiness of `metadata.get(k)`: None (missing key), empty
strings and empty lists are falsy; date objects are always truthy. -/
def truthy : Option Value → Bool
  | none => false
  | some (.vStr s) => !(s == "")
  | some (.vDate _ _ _) => true
  | some (.vList l) => !l.isEmpty

/-- Whether a character is an ASCII decimal digit. -/
def isDigit (c : Char) : Bool := '0' ≤ c && c ≤ '9'

/-- The value of an ASCII digit character. -/
def dval (c : Char) : Nat := c.toNat - 48

/-- A two-digit number, when both characters are digits. -/
def d2 (a b : Char) : Option Nat :=
  if isDigit a && isDigit b then some (10 * dval a + dval b) else none

/-- A four-digit number, when all characters are digits. -/
def d4 (a b c d : Char) : Option Nat :=
  if isDigit a && isDigit b && isDigit c && isDigit d then
    some (1000 * dval a + 100 * dval b + 10 * dval c + dval d)
  else none

/-- The Gregorian leap-year rule. -/
def isLeap (y : Nat) : Bool := (y % 4 == 0 && y % 100 != 0) || y % 400 == 0

/-- Days in a month of a given year. -/
def daysInMonth (y m : Nat) : Nat :=
  if m = 2 then (if isLeap y then 29 else 28)
  else if m = 4 ∨ m = 6 ∨ m = 9 ∨ m = 11 then 30
  else 31

/-- Calendar validity of a date, as `datetime.date` enforces. -/
def validDate (y m d : Nat) : Bool :=
  1 ≤ m && m ≤ 12 && 1 ≤ d && d ≤ daysInMonth y m

/-- Validity of a time of day. -/
def validTime (hh mi ss : Nat) : Bool := hh < 24 && mi < 60 && ss < 60

/-- An injective numeric encoding of a datetime whose order coincides with
`datetime` comparison. -/
def dtKey (y m d hh mi ss : Nat) : Nat :=
  ((((y * 13 + m) * 32 + d) * 24 + hh) * 60 + mi) * 60 + ss

/-- Models `datetime.fromisoformat` restricted to the YYYY-MM-DD and
YYYY-MM-DD{T or space}HH:MM[:SS] shapes this pipeline can produce or
receive; any other shape fails, as the library raises ValueError. -/
def parseIsoChars : List Char → Option Nat
  | [y1, y2, y3, y4, '-', m1, m2, '-', a1, a2] => do
      let y ← d4 y1 y2 y3 y4
      let m ← d2 m1 m2
      let d ← d2 a1 a2
      if validDate y m d then some (dtKey y m d 0 0 0) else none
  | [y1, y2, y3, y4, '-', m1, m2, '-', a1, a2, sep, h1, h2, ':', n1, n2] => do
      let y ← d4 y1 y2 y3 y4
      let m ← d2 m1 m2
      let d ← d2 a1 a2
      let hh ← d2 h1 h2
      let mi ← d2 n1 n2
      if (sep = 'T' ∨ sep = ' ') ∧ (validDate y m d && validTime hh mi 0) = true then
        some (dtKey y m d hh mi 0)
      else none
  | [y1, y2, y3, y4, '-', m1, m2, '-', a1, a2, sep, h1, h2, ':', n1, n2, ':', s1, s2] => do
      let y ← d4 y1 y2 y3 y4
      let m ← d2 m1 m2
      let d ← d2 a1 a2
      let hh ← d2 h1 h2
      let mi ← d2 n1 n2
      let ss ← d2 s1 s2
      if (sep = 'T' ∨ sep = ' ') ∧ (validDate y m d && validTime hh mi ss) = true then
        some (dtKey y m d hh mi ss)
      else none
  | _ => none

/-- `datetime.fromisoformat` on a string. -/
def datetime_fromisoformat (s : String) : Option Nat := parseIsoChars s.data

/-- The sort key computation `datetime.fromisoformat(x['date'])`: a
TypeError (None) when the date field is not a string, a ValueError (None)
when the string does not parse. -/
def fromisoformatV : Value → Option Nat
  | .vStr s => datetime_fromisoformat s
  | _ => none

/-! ## Frontmatter parsing (model of `frontmatter.loads`) -/

/-- Split a character list at every occurrence of the separator, as
Python's `str.split(sep)`. -/
def splitOnChar (sep : Char) : List Char → List (List Char)
  | [] => [[]]
  | c :: rest =>
      match splitOnChar sep rest with
      | [] => [[]]
      | cur :: parts =>
          if c = sep then [] :: cur :: parts else (c :: cur) :: parts

/-- Join lines with newlines, the inverse of splitting on '\n'. -/
def joinLines : List (List Char) → List Char
  | [] => []
  | [l] => l
  | l :: ls => l ++ '\n' :: joinLines ls

/-- Split a header line at its first ": " into key and value. -/
def splitKV : List Char → Option (List Char × List Char)
  | [] => none
  | ':' :: ' ' :: rest => some ([], rest)
  | c :: rest => (splitKV rest).map (fun q => (c :: q.1, q.2))

/-- Models the YAML scalar parsing the frontmatter library applies to header
values, restricted to the shapes this pipeline distinguishes: a
single-quoted scalar is a string with the quotes stripped; an unquoted
dddd-dd-dd scalar resolves to a date object, or to a parse error when the
date is calendar-invalid (PyYAML's date construction raises); anything else
stays a plain string. -/
def parseScalar (cs : List Char) : Except Unit Value :=
  match cs with
  | '\'' :: rest =>
      if rest.getLast? = some '\'' then .ok (.vStr ⟨rest.dropLast⟩)
      else .error ()
  | [a, b, c, d, '-', e, f, '-', g, h] =>
      match d4 a b c d, d2 e f, d2 g h with
      | some y, some m, some dd =>
          if validDate y m dd then .ok (.vDate y m dd) else .error ()
      | _, _, _ => .ok (.vStr ⟨cs⟩)
  | _ => .ok (.vStr ⟨cs⟩)

/-- Models parsing the YAML mapping lines of a frontmatter header, head
first so that a duplicated key keeps the later value as Python dicts do;
empty lines are skipped and any line not of the "key: value" shape is a
parse error. -/
def parseHeaderLinesAux (acc : Metadata) : List (List Char) → Except Unit Metadata
  | [] => .ok acc
  | l :: rest =>
      if l = [] then parseHeaderLinesAux acc rest
      else
        match splitKV l with
        | some (k, v) =>
            match parseScalar v with
            | .ok val => parseHeaderLinesAux (mput acc ⟨k⟩ val) rest
            | .error e => .error e
        | none => .error ()

/-- Find the closing "---" delimiter line: the lines strictly before it and
the lines strictly after it. -/
def splitAtDelim : List (List Char) → Option (List (List Char) × List (List Char))
  | [] => none
  | l :: rest =>
      if l = "---".data then some ([], rest)
      else (splitAtDelim rest).map (fun q => (l :: q.1, q.2))

/-- Models `frontmatter.loads`: if the text starts with a "---" line and a
closing "---" line follows, the lines between form a YAML mapping (whose
parse failure raises) and the lines after form the content; otherwise there
is no frontmatter block, and the whole text is the content with empty
metadata. -/
def frontmatter_loads (raw : String) : Except Unit (Metadata × String) :=
  match splitOnChar '\n' raw.data with
  | l :: rest =>
      if l = "---".data then
        match splitAtDelim rest with
        | none => .ok ([], raw)
        | some (header, bodyLines) =>
            match parseHeaderLinesAux [] header with
            | .ok m => .ok (m, ⟨joinLines bodyLines⟩)
            | .error e => .error e
      else .ok ([], raw)
  | [] => .ok ([], raw)

/-! ## PIL model, image compression and the asset map -/

/-- Configuration constant `IMAGE_MAX_WIDTH`. -/
def IMAGE_MAX_WIDTH : Nat := 1280

/-- Configuration constant `IMAGE_QUALITY`. -/
def IMAGE_QUALITY : Nat := 80

/-- Configuration constant `COMPRESSED_DIR`. -/
def COMPRESSED_DIR : String := "compressed"

/-- A PIL image object: dimensions, and the `format` attribute, which is set
by the file reader and absent (None) on derived images such as the copies
`resize` returns. -/
structure PILImage where
  width : Nat
  height : Nat
  format : Option String
deriving DecidableEq

/-- An image file on disk: either undecodable, or a raster image of the
given dimensions whose on-disk format PIL reports. -/
inductive ImageFile where
  | corrupt
  | valid (width height : Nat) (format : String)
deriving DecidableEq

/-- Models `PIL.Image.open`: raises (None) on an undecodable file, otherwise
yields an image whose `format` attribute is the on-disk format. -/
def pilOpen : ImageFile → Option PILImage
  | .corrupt => none
  | .valid w h f => some ⟨w, h, some f⟩

/-- Models `PIL.Image.resize`: returns a new image object of the requested
size; the new object's `format` attribute is None, since only the file
reader sets that attribute. -/
def pilResize (_img : PILImage) (w h : Nat) : PILImage := ⟨w, h, none⟩

/-- Models the encoder behind PIL's `save`: for given dimensions, format and
quality it either produces the encoded bytes or raises (None).  The pipeline
logic is proved for every encoder. -/
structure PILEnv where
  save : Nat → Nat → String → Nat → Option (List Nat)

/-- The base64 alphabet. -/
def b64Char (n : Nat) : Char :=
  "ABCDEFGHIJKLMNOPQRSTUVWXYZabcdefghijklmnopqrstuvwxyz0123456789+/".data.getD n 'A'

/-- Standard base64 with '=' padding, as `base64.b64encode`. -/
def base64Encode : List Nat → List Char
  | [] => []
  | [b1] => [b64Char (b1 / 4), b64Char (b1 % 4 * 16), '=', '=']
  | [b1, b2] =>
      [b64Char (b1 / 4), b64Char (b1 % 4 * 16 + b2 / 16), b64Char (b2 % 16 * 4), '=']
  | b1 :: b2 :: b3 :: rest =>
      b64Char (b1 / 4) :: b64Char (b1 % 4 * 16 + b2 / 16) ::
        b64Char (b2 % 16 * 4 + b3 / 64) :: b64Char (b3 % 64) :: base64Encode rest

/-- Lowercasing a string, as Python's `str.lower` on ASCII format names. -/
def strLower (s : String) : String := String.mk (s.data.map Char.toLower)

/-- Floor of log2 of a positive natural, by fuel-bounded halving (fuel `n`
always suffices). -/
def lg2Aux : Nat → Nat → Nat
  | 0, _ => 0
  | fuel+1, n => if n ≤ 1 then 0 else lg2Aux fuel (n / 2) + 1

/-- Floor of log2 of a positive natural. -/
def lg2 (n : Nat) : Nat := lg2Aux n n

/-- Whether `2^e ≤ a/b`, for positive naturals `a`, `b`. -/
def fracPow2Le (e : Int) (a b : Nat) : Bool :=
  if 0 ≤ e then decide (b * 2 ^ e.toNat ≤ a) else decide (b ≤ a * 2 ^ (-e).toNat)

/-- The binade of the positive fraction `a/b`: the integer `e` with
`2^e ≤ a/b < 2^(e+1)`. -/
def fracLog2 (a b : Nat) : Int :=
  let e0 : Int := (lg2 a : Int) - (lg2 b : Int)
  if fracPow2Le e0 a b then e0 else e0 - 1

/-- Round `a/b` (`b` positive) to the nearest natural, ties to even. -/
def rheFrac (a b : Nat) : Nat :=
  let n := a / b
  let r := a % b
  if 2 * r < b then n
  else if b < 2 * r then n + 1
  else if n % 2 = 0 then n else n + 1

/-- IEEE-754 binary64 rounding (round to nearest, ties to even) of the
positive fraction `a/b`: the 53-bit significand `m` and the binade exponent
`e`; the value represented is `m * 2^(e-52)`.  Quotients of image dimensions
stay far inside the normal range, so neither subnormals nor overflow can
occur. -/
def flFrac (a b : Nat) : Nat × Int :=
  let e := fracLog2 a b
  let s : Int := 52 - e
  let m :=
    if 0 ≤ s then rheFrac (a * 2 ^ s.toNat) b else rheFrac a (b * 2 ^ (-s).toNat)
  (m, e)

/-- Numerator of the binary64 value `m * 2^(e-52)` written as a fraction of
naturals. -/
def dyNum (m : Nat) (e : Int) : Nat :=
  if 0 ≤ e - 52 then m * 2 ^ (e - 52).toNat else m

/-- Denominator of the binary64 value `m * 2^(e-52)` written as a fraction
of naturals. -/
def dyDen (m : Nat) (e : Int) : Nat :=
  if 0 ≤ e - 52 then 1 else 2 ^ (52 - e).toNat

/-- Line 30, `int((IMAGE_MAX_WIDTH / img.width) * img.height)`, computed the
way CPython does: `IMAGE_MAX_WIDTH / img.width` rounds to the nearest
binary64, the product with `img.height` rounds again to the nearest
binary64, and `int` truncates the result toward zero (the floor, as the
value is nonnegative).  Both roundings are bit-exact here: each intermediate
is a rounded quotient of naturals, which `flFrac` renders as an exact
significand-exponent pair. -/
def pyResizeHeight (w h : Nat) : Nat :=
  if w = 0 ∨ h = 0 then 0
  else
    let f1 := flFrac IMAGE_MAX_WIDTH w
    let a2 := dyNum f1.1 f1.2 * h
    let b2 := dyDen f1.1 f1.2
    let f2 := flFrac a2 b2
    dyNum f2.1 f2.2 / dyDen f2.1 f2.2

/-- The rational value of a significand-exponent pair. -/
def flVal (p : Nat × Int) : ℚ := (p.1 : ℚ) * 2 ^ (p.2 - 52)

/-- The resize branch of `compress_and_encode_image` (lines 29-31): the new
height is the binary64 evaluation of
`int((IMAGE_MAX_WIDTH / img.width) * img.height)`; an image at most
`IMAGE_MAX_WIDTH` wide is left untouched. -/
def resizeStep (img : PILImage) : PILImage :=
  if IMAGE_MAX_WIDTH < img.width then
    pilResize img IMAGE_MAX_WIDTH (pyResizeHeight img.width img.height)
  else img

/-- The script's `compress_and_encode_image`: open, resize if wider than the
maximum, re-encode in `img.format or 'JPEG'` at the configured quality, and
build the data URI `data:image/<fmt lowercased>;base64,<payload>`; any error
along the way is caught and yields None. -/
def compress_and_encode_image (env : PILEnv) (file : ImageFile) : Option String :=
  match pilOpen file with
  | none => none
  | some img0 =>
      let img := resizeStep img0
      let fmt := match img.format with
        | some s => if s = "" then "JPEG" else s
        | none => "JPEG"
      match env.save img.width img.height fmt IMAGE_QUALITY with
      | none => none
      | some bytes =>
          some ("data:image/" ++ strLower fmt ++ ";base64," ++
            String.mk (base64Encode bytes))

/-- The extension filter of the image loop (line 86), case-insensitive. -/
def isImageName (name : String) : Bool :=
  let ln := name.data.map Char.toLower
  List.isSuffixOf ".png".data ln || List.isSuffixOf ".jpg".data ln ||
    List.isSuffixOf ".jpeg".data ln || List.isSuffixOf ".gif".data ln

/-- The asset-map construction loop of `process_article` (lines 82-90): each
listed file with a recognized image extension is compressed; a None result
(a caught per-image error) leaves the map unchanged, otherwise the data URI
is recorded under the filename.  Filenames within one directory listing are
distinct, so the dict insert is an append. -/
def collectAssets (env : PILEnv) (images : List (String × ImageFile)) :
    List (String × String) :=
  images.foldl (fun m q =>
    if isImageName q.1 then
      match compress_and_encode_image env q.2 with
      | some uri => m ++ [(q.1, uri)]
      | none => m
    else m) []

/-! ## Per-article processing and the run driver -/

/-- A manifest entry, the summary `process_article` returns (lines 108-115). -/
structure ManifestEntry where
  id : String
  category : String
  title : Value
  date : Value
  tags : Value
  author : Value
deriving DecidableEq

/-- The per-article JSON document (lines 96-100). -/
structure ArticleJson where
  id : String
  metadata : Metadata
  content_md : String
deriving DecidableEq

/-- An article folder: its name, the contents of `article.md` when that file
exists, and the listing of its `images/` folder. -/
structure ArticleDir where
  name : String
  articleMd : Option String
  images : List (String × ImageFile)

/-- The script's `process_article`: returns the manifest summary (None on
any skip) together with the JSON file writes it performs.  Skips: missing
`article.md`, frontmatter parse failure, falsy title or date.  Otherwise it
serializes dates in the metadata, computes the MD5-prefix identifier, builds
the asset map, rewrites the body, and writes
`compressed/<category>/<id>.json`. -/
def process_article (env : PILEnv) (dir : ArticleDir) (category : String) :
    Option ManifestEntry × List (String × ArticleJson) :=
  match dir.articleMd with
  | none => (none, [])
  | some raw =>
      match frontmatter_loads raw with
      | .error _ => (none, [])
      | .ok (metadata, content) =>
          if truthy (mget metadata "title") && truthy (mget metadata "date") then
            let metadata2 := metadata.map (fun q => (q.1, serialize_date q.2))
            let uid := uniqueId dir.name raw
            let assets := collectAssets env dir.images
            let contentWithImages := replace_image_paths content assets
            let articleData : ArticleJson := ⟨uid, metadata2, contentWithImages⟩
            let outputPath := COMPRESSED_DIR ++ "/" ++ category ++ "/" ++ uid ++ ".json"
            (some ⟨uid, category,
                (mget metadata2 "title").getD (.vStr ""),
                (mget metadata2 "date").getD (.vStr ""),
                (mget metadata2 "tags").getD (.vList []),
                (mget metadata2 "author").getD (.vStr "Unknown")⟩,
              [(outputPath, articleData)])
          else (none, [])

/-- Stable descending insertion: `x` is placed before the first element
whose key is at most `key x`, i.e. after every element with a strictly
greater key and before every element with an equal or smaller key. -/
def insertDesc {α : Type} (key : α → Nat) (x : α) : List α → List α
  | [] => [x]
  | y :: l => if key x < key y then y :: insertDesc key x l else x :: y :: l

/-- Models Python's `list.sort(key=..., reverse=True)`: a stable sort into
descending key order. -/
def pySortDesc {α : Type} (key : α → Nat) : List α → List α
  | [] => []
  | x :: l => insertDesc key x (pySortDesc key l)

/-- A manifest file write: path and entry list. -/
structure ManifestWrite where
  path : String
  entries : List ManifestEntry
deriving DecidableEq

/-- The sort key of `generate_manifests` (line 119), defaulting arbitrarily
(never used) when the date fails to parse. -/
def sortKey (a : ManifestEntry) : Nat := (fromisoformatV a.date).getD 0

/-- The script's `generate_manifests`: sorts the collected summaries by
parsed date, descending and stable, then writes the full manifest, the first
10 entries as the latest manifest, and one filtered manifest per category in
[news, reviews].  CPython computes every sort key before comparing, so if
any date fails to parse the sort raises and no manifest file is written
(None). -/
def generate_manifests (articles : List ManifestEntry) :
    Option (List ManifestWrite) :=
  if articles.all (fun a => (fromisoformatV a.date).isSome) then
    let sorted := pySortDesc sortKey articles
    some [⟨COMPRESSED_DIR ++ "/full_manifest.json", sorted⟩,
          ⟨COMPRESSED_DIR ++ "/latest_manifest.json", sorted.take 10⟩,
          ⟨COMPRESSED_DIR ++ "/news_manifest.json",
            sorted.filter (fun a => a.category == "news")⟩,
          ⟨COMPRESSED_DIR ++ "/reviews_manifest.json",
            sorted.filter (fun a => a.category == "reviews")⟩]
  else none

/-- The content tree: the two category folders, either possibly absent. -/
structure ContentRoot where
  news : Option (List ArticleDir)
  reviews : Option (List ArticleDir)

/-- How a run ends: nothing processed (no manifests attempted), manifests
written, or an exception out of `generate_manifests`. -/
inductive RunOutcome where
  | noArticles
  | ok (manifests : List ManifestWrite)
  | raised
deriving DecidableEq

/-- One step of the per-category loop of `main` (lines 143-148): process an
article folder, appending its summary (if any) and its file writes. -/
def collectStep (env : PILEnv) (category : String)
    (acc : List ManifestEntry × List (String × ArticleJson)) (d : ArticleDir) :
    List ManifestEntry × List (String × ArticleJson) :=
  let pr := process_article env d category
  (match pr.1 with
   | some e => acc.1 ++ [e]
   | none => acc.1, acc.2 ++ pr.2)

/-- The per-category loop of `main` (lines 143-148): process each article
folder, collecting summaries and file writes in order. -/
def collectCat (env : PILEnv) (dirs : List ArticleDir) (category : String) :
    List ManifestEntry × List (String × ArticleJson) :=
  dirs.foldl (collectStep env category) ([], [])

/-- The article-processing pass of `main` (lines 138-148): the collected
summaries and the per-article file writes, news first then reviews, a
missing category folder skipped. -/
def mainPass (env : PILEnv) (root : ContentRoot) :
    List ManifestEntry × List (String × ArticleJson) :=
  let cNews := match root.news with
    | none => ([], [])
    | some ds => collectCat env ds "news"
  let cRev := match root.reviews with
    | none => ([], [])
    | some ds => collectCat env ds "reviews"
  (cNews.1 ++ cRev.1, cNews.2 ++ cRev.2)

/-- The script's `main`: walk the news and reviews category folders, process
every article folder, and generate manifests when at least one article was
processed. -/
def mainRun (env : PILEnv) (root : ContentRoot) :
    List (String × ArticleJson) × RunOutcome :=
  let pass := mainPass env root
  if pass.1.isEmpty then (pass.2, .noArticles)
  else
    match generate_manifests pass.1 with
    | some ms => (pass.2, .ok ms)
    | none => (pass.2, .raised)

/-! ## Claims C4, C5, C7: image compression -/

instance {ε α : Type} [DecidableEq ε] [DecidableEq α] : DecidableEq (Except ε α) :=
  fun a b =>
    match a, b with
    | .ok x, .ok y =>
        if h : x = y then .isTrue (by rw [h])
        else .isFalse (by intro hc; cases hc; exact h rfl)
    | .error x, .error y =>
        if h : x = y then .isTrue (by rw [h])
        else .isFalse (by intro hc; cases hc; exact h rfl)
    | .ok _, .error _ => .isFalse (by intro hc; cases hc)
    | .error _, .ok _ => .isFalse (by intro hc; cases hc)

/-- An encoder that always succeeds with an empty payload, used to
instantiate claims that are proved for every encoder. -/
def envOk : PILEnv := ⟨fun _ _ _ _ => some []⟩

theorem lg2Aux_bounds :
    ∀ (fuel n : Nat), 1 ≤ n → n ≤ fuel →
      2 ^ lg2Aux fuel n ≤ n ∧ n < 2 ^ (lg2Aux fuel n + 1) := by
  intro fuel
  induction fuel with
  | zero => intro n h1 h2; omega
  | succ f ih =>
      intro n h1 h2
      by_cases hn : n ≤ 1
      · have hn1 : n = 1 := by omega
        subst hn1
        simp [lg2Aux]
      · simp only [lg2Aux, if_neg hn]
        have h2' : n / 2 ≤ f := by omega
        have h1' : 1 ≤ n / 2 := by omega
        obtain ⟨lo, hi⟩ := ih (n / 2) h1' h2'
        have e1 : 2 ^ (lg2Aux f (n / 2) + 1) = 2 * 2 ^ lg2Aux f (n / 2) := by ring
        have e2 : 2 ^ (lg2Aux f (n / 2) + 1 + 1) = 2 * 2 ^ (lg2Aux f (n / 2) + 1) := by
          ring
        omega

theorem lg2_bounds {n : Nat} (h : 1 ≤ n) :
    2 ^ lg2 n ≤ n ∧ n < 2 ^ (lg2 n + 1) :=
  lg2Aux_bounds n n h le_rfl

theorem fracPow2Le_iff {e : Int} {a b : Nat} (hb : 0 < b) :
    fracPow2Le e a b = true ↔ (2 : ℚ) ^ e ≤ (a : ℚ) / b := by
  have hbq : (0 : ℚ) < b := by exact_mod_cast hb
  unfold fracPow2Le
  by_cases he : 0 ≤ e
  · rw [if_pos he]
    simp only [decide_eq_true_eq]
    have he2 : (2 : ℚ) ^ e = ((2 ^ e.toNat : ℕ) : ℚ) := by
      conv_lhs => rw [← Int.toNat_of_nonneg he]
      rw [zpow_natCast]
      push_cast
      ring
    rw [he2, le_div_iff₀ hbq, ← Nat.cast_mul, Nat.cast_le, Nat.mul_comm]
  · rw [if_neg he]
    simp only [decide_eq_true_eq]
    have he2 : (2 : ℚ) ^ e = (((2 ^ (-e).toNat : ℕ) : ℚ))⁻¹ := by
      have he3 : e = -(((-e).toNat : ℤ)) := by omega
      conv_lhs => rw [he3]
      rw [zpow_neg, zpow_natCast]
      push_cast
      ring
    have hp : (0 : ℚ) < ((2 ^ (-e).toNat : ℕ) : ℚ) := by positivity
    rw [he2, inv_eq_one_div, div_le_div_iff₀ hp hbq, one_mul, ← Nat.cast_mul,
      Nat.cast_le, Nat.mul_comm]

theorem fracLog2_le {a b : Nat} (ha : 0 < a) (hb : 0 < b) :
    (2 : ℚ) ^ fracLog2 a b ≤ (a : ℚ) / b := by
  have hbq : (0 : ℚ) < b := by exact_mod_cast hb
  unfold fracLog2
  cases hc : fracPow2Le ((lg2 a : Int) - lg2 b) a b
  · simp only [hc, Bool.false_eq_true, if_false]
    have h1 : ((2 : ℚ)) ^ ((lg2 a : Int)) ≤ (a : ℚ) := by
      rw [zpow_natCast]
      exact_mod_cast (lg2_bounds ha).1
    have h2 : (b : ℚ) < 2 ^ ((lg2 b : Int) + 1) := by
      rw [show (lg2 b : Int) + 1 = ((lg2 b + 1 : ℕ) : ℤ) by push_cast; ring,
        zpow_natCast]
      exact_mod_cast (lg2_bounds hb).2
    rw [le_div_iff₀ hbq]
    have key : (2 : ℚ) ^ ((lg2 a : Int) - lg2 b - 1) * b ≤
        2 ^ ((lg2 a : Int) - lg2 b - 1) * 2 ^ ((lg2 b : Int) + 1) := by
      apply mul_le_mul_of_nonneg_left (le_of_lt h2) (by positivity)
    calc (2 : ℚ) ^ ((lg2 a : Int) - lg2 b - 1) * b ≤
        2 ^ ((lg2 a : Int) - lg2 b - 1) * 2 ^ ((lg2 b : Int) + 1) := key
      _ = 2 ^ ((lg2 a : Int)) := by
          rw [← zpow_add₀ (two_ne_zero : (2 : ℚ) ≠ 0)]
          ring_nf
      _ ≤ a := h1
  · simp only [hc, if_true]
    exact (fracPow2Le_iff hb).mp hc

theorem rheFrac_err {a b : Nat} (hb : 0 < b) :
    |((rheFrac a b : ℚ)) - a / b| ≤ 1 / 2 := by
  have hbq : (0 : ℚ) < b := by exact_mod_cast hb
  have hq : (a : ℚ) = (b : ℚ) * ((a / b : ℕ) : ℚ) + ((a % b : ℕ) : ℚ) := by
    exact_mod_cast (Nat.div_add_mod a b).symm
  have hx : (a : ℚ) / b = ((a / b : ℕ) : ℚ) + ((a % b : ℕ) : ℚ) / b := by
    rw [hq, add_div, mul_div_cancel_left₀ _ (ne_of_gt hbq)]
  have hrn : (0 : ℚ) ≤ ((a % b : ℕ) : ℚ) := by positivity
  unfold rheFrac
  by_cases h1 : 2 * (a % b) < b
  · rw [if_pos h1, hx]
    have hc : ((a % b : ℕ) : ℚ) * 2 ≤ b := by
      exact_mod_cast (by omega : a % b * 2 ≤ b)
    have hd : ((a % b : ℕ) : ℚ) / b ≤ 1 / 2 := by
      rw [div_le_div_iff₀ hbq two_pos]; linarith
    have hd0 : (0 : ℚ) ≤ ((a % b : ℕ) : ℚ) / b := by positivity
    rw [abs_le]
    constructor <;> linarith
  · by_cases h2 : b < 2 * (a % b)
    · rw [if_neg h1, if_pos h2, hx]
      have hc : (b : ℚ) ≤ ((a % b : ℕ) : ℚ) * 2 := by
        exact_mod_cast (by omega : b ≤ a % b * 2)
      have hrb : ((a % b : ℕ) : ℚ) < b := by
        exact_mod_cast Nat.mod_lt _ hb
      have hd : 1 / 2 ≤ ((a % b : ℕ) : ℚ) / b := by
        rw [div_le_div_iff₀ two_pos hbq]; linarith
      have hd1 : ((a % b : ℕ) : ℚ) / b ≤ 1 := by
        rw [div_le_one hbq]; linarith
      push_cast
      rw [abs_le]
      constructor <;> linarith
    · rw [if_neg h1, if_neg h2, hx]
      have heq : a % b * 2 = b := by omega
      have he : ((a % b : ℕ) : ℚ) / b = 1 / 2 := by
        rw [div_eq_div_iff (ne_of_gt hbq) (two_ne_zero), one_mul]
        exact_mod_cast heq
      by_cases h3 : a / b % 2 = 0
      · rw [if_pos h3, he, abs_le]
        constructor <;> linarith
      · rw [if_neg h3, he]
        push_cast
        rw [abs_le]
        constructor <;> linarith

theorem flVal_nonneg (p : Nat × Int) : 0 ≤ flVal p := by
  unfold flVal
  positivity

theorem scale_err {A B : Nat} (hB : 0 < B) (e : Int) :
    |(rheFrac A B : ℚ) * 2 ^ (e - 52) - ((A : ℚ) / B) * 2 ^ (e - 52)| ≤
      2 ^ (e - 53) := by
  rw [← sub_mul, abs_mul, abs_of_pos (a := (2 : ℚ) ^ (e - 52)) (by positivity)]
  have h := rheFrac_err (a := A) (b := B) hB
  calc |(rheFrac A B : ℚ) - A / B| * 2 ^ (e - 52) ≤ 1 / 2 * 2 ^ (e - 52) := by
        apply mul_le_mul_of_nonneg_right h (by positivity)
    _ = 2 ^ (e - 53) := by
        rw [show e - 53 = -1 + (e - 52) by ring,
          zpow_add₀ (two_ne_zero : (2 : ℚ) ≠ 0)]
        norm_num

theorem flFrac_err {a b : Nat} (ha : 0 < a) (hb : 0 < b) :
    |flVal (flFrac a b) - (a : ℚ) / b| ≤ ((a : ℚ) / b) * (2 : ℚ) ^ (-53 : ℤ) := by
  have hbq : (0 : ℚ) < b := by exact_mod_cast hb
  have hstep : |flVal (flFrac a b) - (a : ℚ) / b| ≤ 2 ^ (fracLog2 a b - 53) := by
    simp only [flFrac, flVal]
    by_cases hs : 0 ≤ 52 - fracLog2 a b
    · rw [if_pos hs]
      have hab : ((a * 2 ^ (52 - fracLog2 a b).toNat : ℕ) : ℚ) / b =
          ((a : ℚ) / b) * 2 ^ (52 - fracLog2 a b).toNat := by
        push_cast
        ring
      have h := scale_err (A := a * 2 ^ (52 - fracLog2 a b).toNat) (B := b) hb
        (fracLog2 a b)
      rw [hab] at h
      have hxv : ((a : ℚ) / b) * 2 ^ (52 - fracLog2 a b).toNat *
          2 ^ (fracLog2 a b - 52) = (a : ℚ) / b := by
        rw [← zpow_natCast (2 : ℚ) (52 - fracLog2 a b).toNat,
          Int.toNat_of_nonneg hs, mul_assoc,
          ← zpow_add₀ (two_ne_zero : (2 : ℚ) ≠ 0),
          show 52 - fracLog2 a b + (fracLog2 a b - 52) = 0 by ring,
          zpow_zero, mul_one]
      rw [hxv] at h
      exact h
    · rw [if_neg hs]
      have hB : 0 < b * 2 ^ (-(52 - fracLog2 a b)).toNat := by positivity
      have hab : ((a : ℕ) : ℚ) / ((b * 2 ^ (-(52 - fracLog2 a b)).toNat : ℕ) : ℚ) =
          ((a : ℚ) / b) * ((2 : ℚ) ^ (-(52 - fracLog2 a b)).toNat)⁻¹ := by
        push_cast
        rw [div_mul_eq_div_div, div_eq_mul_inv ((a : ℚ) / b)]
      have h := scale_err (A := a) (B := b * 2 ^ (-(52 - fracLog2 a b)).toNat) hB
        (fracLog2 a b)
      rw [hab] at h
      have hxv : ((a : ℚ) / b) * ((2 : ℚ) ^ (-(52 - fracLog2 a b)).toNat)⁻¹ *
          2 ^ (fracLog2 a b - 52) = (a : ℚ) / b := by
        rw [← zpow_natCast (2 : ℚ) (-(52 - fracLog2 a b)).toNat,
          show (((-(52 - fracLog2 a b)).toNat : ℕ) : ℤ) = fracLog2 a b - 52 by omega,
          ← zpow_neg, mul_assoc, ← zpow_add₀ (two_ne_zero : (2 : ℚ) ≠ 0),
          show -(fracLog2 a b - 52) + (fracLog2 a b - 52) = 0 by ring,
          zpow_zero, mul_one]
      rw [hxv] at h
      exact h
  have hlog := fracLog2_le ha hb
  calc |flVal (flFrac a b) - (a : ℚ) / b| ≤ 2 ^ (fracLog2 a b - 53) := hstep
    _ = 2 ^ fracLog2 a b * 2 ^ (-53 : ℤ) := by
        rw [← zpow_add₀ (two_ne_zero : (2 : ℚ) ≠ 0)]
        ring_nf
    _ ≤ ((a : ℚ) / b) * 2 ^ (-53 : ℤ) := by
        apply mul_le_mul_of_nonneg_right hlog (by positivity)

theorem flFrac_num_pos {a b : Nat} (ha : 0 < a) (hb : 0 < b) :
    0 < (flFrac a b).1 := by
  by_contra hm
  have hm0 : (flFrac a b).1 = 0 := by omega
  have herr := flFrac_err ha hb
  have hv : flVal (flFrac a b) = 0 := by
    unfold flVal
    rw [hm0]
    push_cast
    ring
  have hq : (0 : ℚ) < (a : ℚ) / b := by positivity
  rw [hv, zero_sub, abs_neg, abs_of_pos hq] at herr
  have hu : ((2 : ℚ)) ^ (-53 : ℤ) ≤ 1 / 2 := by
    rw [show (-53 : ℤ) = -(53 : ℤ) by ring, zpow_neg,
      show ((53 : ℤ)) = ((53 : ℕ) : ℤ) by norm_num, zpow_natCast]
    rw [inv_le_comm₀ (by positivity) (by norm_num)]
    norm_num
  nlinarith

theorem dy_div_eq (m : Nat) (e : Int) :
    ((dyNum m e : ℕ) : ℚ) / ((dyDen m e : ℕ) : ℚ) = flVal (m, e) := by
  unfold dyNum dyDen flVal
  by_cases h : 0 ≤ e - 52
  · rw [if_pos h, if_pos h, Nat.cast_one, div_one, Nat.cast_mul, Nat.cast_pow,
      Nat.cast_ofNat, ← zpow_natCast (2 : ℚ) (e - 52).toNat, Int.toNat_of_nonneg h]
  · rw [if_neg h, if_neg h]
    rw [show e - 52 = -(((52 - e).toNat : ℕ) : ℤ) by omega]
    rw [zpow_neg, zpow_natCast]
    push_cast
    rw [div_eq_mul_inv]

theorem dyDen_pos (m : Nat) (e : Int) : 0 < dyDen m e := by
  unfold dyDen
  by_cases h : 0 ≤ e - 52
  · rw [if_pos h]; omega
  · rw [if_neg h]; positivity

theorem dyNum_pos {m : Nat} (e : Int) (hm : 0 < m) : 0 < dyNum m e := by
  unfold dyNum
  by_cases h : 0 ≤ e - 52
  · rw [if_pos h]; positivity
  · rw [if_neg h]; omega

theorem dy_floor (m : Nat) (e : Int) :
    dyNum m e / dyDen m e = ⌊flVal (m, e)⌋₊ := by
  rw [← dy_div_eq, Nat.floor_div_nat, Nat.floor_natCast]

theorem float_two_step_bound {x1 v1 v2 H : ℚ} (hx1p : 0 < x1) (hx1 : x1 < 1)
    (hH1 : 1 ≤ H) (hH : H ≤ 2 ^ 24)
    (h1 : |v1 - x1| ≤ x1 * (2 : ℚ) ^ (-53 : ℤ))
    (h2 : |v2 - v1 * H| ≤ v1 * H * (2 : ℚ) ^ (-53 : ℤ)) :
    |v2 - x1 * H| ≤ 1 := by
  set u : ℚ := (2 : ℚ) ^ (-53 : ℤ) with hudef
  have huval : u = ((2 : ℚ) ^ (53 : ℕ))⁻¹ := by
    rw [hudef, show (-53 : ℤ) = -((53 : ℕ) : ℤ) by norm_num, zpow_neg, zpow_natCast]
  have hup : 0 < u := by rw [huval]; positivity
  have hu1 : u ≤ 1 := by rw [huval]; norm_num
  have hu3 : 2 ^ 24 * (3 * u) ≤ 1 := by rw [huval]; norm_num
  have hHp : (0 : ℚ) < H := by linarith
  obtain ⟨h1l, h1u⟩ := abs_le.mp h1
  obtain ⟨h2l, h2u⟩ := abs_le.mp h2
  have hv1u : v1 ≤ x1 * (1 + u) := by nlinarith
  have hv1l : x1 * (1 - u) ≤ v1 := by nlinarith
  have hx1H : x1 * H ≤ 2 ^ 24 := by
    nlinarith [mul_nonneg (by linarith : (0 : ℚ) ≤ 1 - x1) hHp.le]
  rw [abs_le]
  constructor
  · have P1 := mul_le_mul_of_nonneg_right hv1l
      (mul_nonneg hHp.le (by linarith : (0 : ℚ) ≤ 1 - u))
    have P2 := mul_nonneg (by linarith : (0 : ℚ) ≤ 2 ^ 24 - x1 * H)
      (by nlinarith : (0 : ℚ) ≤ 2 * u - u ^ 2)
    nlinarith [P1, P2, sq_nonneg u, hup.le, hu3]
  · have P1 := mul_le_mul_of_nonneg_right hv1u
      (mul_nonneg hHp.le (by linarith : (0 : ℚ) ≤ 1 + u))
    have P2 := mul_nonneg (by linarith : (0 : ℚ) ≤ 2 ^ 24 - x1 * H)
      (by nlinarith : (0 : ℚ) ≤ 2 * u + u ^ 2)
    have P3 := mul_le_mul_of_nonneg_left hu1 hup.le
    nlinarith [P1, P2, P3, hup.le, hu3]

theorem pyResizeHeight_bounds {w h : Nat} (hw : IMAGE_MAX_WIDTH < w)
    (hw24 : w ≤ 2 ^ 24) (hh24 : h ≤ 2 ^ 24) :
    IMAGE_MAX_WIDTH * h / w - 1 ≤ pyResizeHeight w h ∧
      pyResizeHeight w h ≤ IMAGE_MAX_WIDTH * h / w + 1 := by
  have hmw : 0 < IMAGE_MAX_WIDTH := by decide
  have hw0 : 0 < w := lt_trans hmw hw
  by_cases hh0 : h = 0
  · subst hh0
    simp [pyResizeHeight]
  have hh1 : 1 ≤ h := by omega
  have h1 := flFrac_err hmw hw0
  have hApos := dyNum_pos (flFrac IMAGE_MAX_WIDTH w).2 (flFrac_num_pos hmw hw0)
  have ha2 : 0 < dyNum (flFrac IMAGE_MAX_WIDTH w).1 (flFrac IMAGE_MAX_WIDTH w).2 * h :=
    Nat.mul_pos hApos (by omega)
  have hb2 := dyDen_pos (flFrac IMAGE_MAX_WIDTH w).1 (flFrac IMAGE_MAX_WIDTH w).2
  have h2 := flFrac_err ha2 hb2
  have hfl : pyResizeHeight w h =
      ⌊flVal (flFrac
        (dyNum (flFrac IMAGE_MAX_WIDTH w).1 (flFrac IMAGE_MAX_WIDTH w).2 * h)
        (dyDen (flFrac IMAGE_MAX_WIDTH w).1 (flFrac IMAGE_MAX_WIDTH w).2))⌋₊ := by
    simp only [pyResizeHeight]
    rw [if_neg (show ¬(w = 0 ∨ h = 0) by omega), dy_floor, Prod.mk.eta]
  have hlink :
      ((dyNum (flFrac IMAGE_MAX_WIDTH w).1 (flFrac IMAGE_MAX_WIDTH w).2 * h : ℕ) : ℚ) /
        ((dyDen (flFrac IMAGE_MAX_WIDTH w).1 (flFrac IMAGE_MAX_WIDTH w).2 : ℕ) : ℚ) =
        flVal (flFrac IMAGE_MAX_WIDTH w) * (h : ℚ) := by
    rw [Nat.cast_mul, mul_div_right_comm, dy_div_eq, Prod.mk.eta]
  rw [hlink] at h2
  set x1 : ℚ := (IMAGE_MAX_WIDTH : ℚ) / w with hx1def
  set v1 : ℚ := flVal (flFrac IMAGE_MAX_WIDTH w) with hv1def
  set v2 : ℚ := flVal (flFrac
    (dyNum (flFrac IMAGE_MAX_WIDTH w).1 (flFrac IMAGE_MAX_WIDTH w).2 * h)
    (dyDen (flFrac IMAGE_MAX_WIDTH w).1 (flFrac IMAGE_MAX_WIDTH w).2)) with hv2def
  have hx1p : (0 : ℚ) < x1 := by
    rw [hx1def]
    apply div_pos
    · exact_mod_cast hmw
    · exact_mod_cast hw0
  have hx1lt : x1 < 1 := by
    rw [hx1def, div_lt_one (by exact_mod_cast hw0)]
    exact_mod_cast hw
  have hH1 : (1 : ℚ) ≤ (h : ℚ) := by exact_mod_cast hh1
  have hH24 : (h : ℚ) ≤ 2 ^ 24 := by exact_mod_cast hh24
  have hsand := float_two_step_bound hx1p hx1lt hH1 hH24 h1 h2
  obtain ⟨hbl, hbu⟩ := abs_le.mp hsand
  have hxcast : x1 * (h : ℚ) = ((IMAGE_MAX_WIDTH * h : ℕ) : ℚ) / ((w : ℕ) : ℚ) := by
    rw [hx1def]
    push_cast
    ring
  have hNfloor : ⌊((IMAGE_MAX_WIDTH * h : ℕ) : ℚ) / ((w : ℕ) : ℚ)⌋₊ =
      IMAGE_MAX_WIDTH * h / w := by
    rw [Nat.floor_div_nat, Nat.floor_natCast]
  have hv2nn : 0 ≤ v2 := by rw [hv2def]; exact flVal_nonneg _
  have hxnn : (0 : ℚ) ≤ ((IMAGE_MAX_WIDTH * h : ℕ) : ℚ) / ((w : ℕ) : ℚ) := by positivity
  constructor
  · have hge : ((IMAGE_MAX_WIDTH * h : ℕ) : ℚ) / ((w : ℕ) : ℚ) ≤ v2 + 1 := by
      rw [← hxcast]
      linarith
    have hmono := Nat.floor_mono hge
    rw [hNfloor, Nat.floor_add_one hv2nn] at hmono
    rw [hfl]
    omega
  · have hle : v2 ≤ ((IMAGE_MAX_WIDTH * h : ℕ) : ℚ) / ((w : ℕ) : ℚ) + 1 := by
      rw [← hxcast]
      linarith
    have hmono := Nat.floor_mono hle
    rw [Nat.floor_add_one hxnn, hNfloor] at hmono
    rw [hfl]
    omega

/-- C4 counterexample: at original width 2560 and height 1003 the code's
`int(...)` truncation yields height 501, while the claimed
`round(max_width / original_width * original_height)` is 502 (the exact
quotient is 501.5, binary64-exact: 1280/2560 and its product with 1003 are
computed without rounding error, and it also rounds to 502 under Python's
round-half-to-even, 502 being even), so the claim's height formula does not
match the code. -/
theorem resizeStep_round_counterexample :
    resizeStep ⟨2560, 1003, some "PNG"⟩ = ⟨1280, 501, none⟩ ∧
    round ((IMAGE_MAX_WIDTH : ℚ) / 2560 * 1003) = 502 ∧ (501 : Nat) ≠ 502 := by
  refine ⟨by decide, ?_, by decide⟩
  norm_num [IMAGE_MAX_WIDTH, round_eq]

/-- C4 amended: an image strictly wider than the configured maximum (1280)
is resized to exactly that width; the new height is the truncation (Python's
`int`) of the binary64 evaluation of
`(IMAGE_MAX_WIDTH / original_width) * original_height` — one rounded
division followed by one rounded multiplication, modelled bit-exactly by
`pyResizeHeight` — and for dimensions up to 2^24 this height stays within 1
of the exact floor `IMAGE_MAX_WIDTH * height / width`; an image of width at
most the maximum is not resized.  (The original claim said `round`, and the
binary64 rounding can also shift the truncation off the exact floor: at
1432x537 the program computes 479 where the exact floor is 480.) -/
theorem resizeStep_float_spec (img : PILImage) :
    (IMAGE_MAX_WIDTH < img.width →
      resizeStep img =
        ⟨IMAGE_MAX_WIDTH, pyResizeHeight img.width img.height, none⟩) ∧
    (img.width ≤ IMAGE_MAX_WIDTH → resizeStep img = img) ∧
    (IMAGE_MAX_WIDTH < img.width → img.width ≤ 2 ^ 24 → img.height ≤ 2 ^ 24 →
      IMAGE_MAX_WIDTH * img.height / img.width - 1 ≤
          pyResizeHeight img.width img.height ∧
        pyResizeHeight img.width img.height ≤
          IMAGE_MAX_WIDTH * img.height / img.width + 1) := by
  refine ⟨?_, ?_, ?_⟩
  · intro h
    simp [resizeStep, pilResize, if_pos h]
  · intro h
    simp [resizeStep, Nat.not_lt.mpr h]
  · intro h hw24 hh24
    exact pyResizeHeight_bounds h hw24 hh24

/-- Witness for C4 amended: the divergent input 1432x537, where the program
computes height 479 while the exact floor is 480 (within the proved distance
1), and a narrow image that is left untouched. -/
theorem resizeStep_float_spec_witness :
    resizeStep ⟨1432, 537, some "PNG"⟩ = ⟨IMAGE_MAX_WIDTH, 479, none⟩ ∧
    resizeStep ⟨800, 600, some "GIF"⟩ = ⟨800, 600, some "GIF"⟩ ∧
    pyResizeHeight 1432 537 = 479 ∧ IMAGE_MAX_WIDTH * 537 / 1432 = 480 := by
  refine ⟨?_, ?_, by decide, by decide⟩
  · have h := (resizeStep_float_spec ⟨1432, 537, some "PNG"⟩).1 (by decide)
    rw [h]
    decide
  · exact (resizeStep_float_spec ⟨800, 600, some "GIF"⟩).2.1 (by decide)

/-- C5 counterexample: a 2560-wide PNG goes through `resize`, whose result
has no `format` attribute, so `img.format or 'JPEG'` re-encodes it as JPEG
and the data URI MIME type is image/jpeg — not image/png as the claim
("for every successfully processed image, resized or not, the original
format") requires. -/
theorem compress_format_counterexample :
    compress_and_encode_image envOk (.valid 2560 1000 "PNG") =
      some "data:image/jpeg;base64," ∧
    "data:image/jpeg;base64," ≠
      "data:image/" ++ strLower "PNG" ++ ";base64," := by
  refine ⟨by decide, by decide⟩

/-- C5 amended: for a decodable image with a nonempty format name, the
re-encoding uses the original format when the image is not wider than the
maximum (so not resized), and the 'JPEG' fallback when it is resized (the
resized copy's `format` attribute is None); in both cases the produced data
URI's MIME type is image/ followed by the used format name lowercased, with
a base64-encoded payload, and a failing save is caught (None). -/
theorem compress_format_spec (env : PILEnv) (w h : Nat) (fmt : String)
    (hf : ¬ fmt = "") :
    compress_and_encode_image env (.valid w h fmt) =
      (env.save (resizeStep ⟨w, h, some fmt⟩).width
          (resizeStep ⟨w, h, some fmt⟩).height
          (if IMAGE_MAX_WIDTH < w then "JPEG" else fmt) IMAGE_QUALITY).map
        (fun bytes => "data:image/" ++
          strLower (if IMAGE_MAX_WIDTH < w then "JPEG" else fmt) ++ ";base64," ++
          String.mk (base64Encode bytes)) := by
  by_cases hw : IMAGE_MAX_WIDTH < w
  · simp only [compress_and_encode_image, pilOpen, resizeStep, pilResize,
      if_pos hw]
    cases hs : env.save IMAGE_MAX_WIDTH (pyResizeHeight w h) "JPEG"
        IMAGE_QUALITY <;>
      simp [hs]
  · simp only [compress_and_encode_image, pilOpen, resizeStep, if_neg hw]
    rw [if_neg hf]
    cases hs : env.save w h fmt IMAGE_QUALITY <;> simp [hs]

/-- Witness for C5 amended: a narrow PNG keeps MIME type image/png. -/
theorem compress_format_spec_witness :
    compress_and_encode_image envOk (.valid 800 600 "PNG") =
      some "data:image/png;base64," := by
  have h := compress_format_spec envOk 800 600 "PNG" (by decide)
  rw [h]
  decide

/-- The compression of an undecodable image file: `Image.open` raises, the
exception is caught, and the result is None. -/
theorem compress_corrupt (env : PILEnv) :
    compress_and_encode_image env .corrupt = none := rfl

theorem collectAssets_foldl (env : PILEnv) :
    ∀ (l : List (String × ImageFile)) (acc : List (String × String)),
      l.foldl (fun m q =>
        if isImageName q.1 then
          match compress_and_encode_image env q.2 with
          | some uri => m ++ [(q.1, uri)]
          | none => m
        else m) acc =
      acc ++ l.filterMap (fun q =>
        if isImageName q.1 then
          (compress_and_encode_image env q.2).map (fun uri => (q.1, uri))
        else none) := by
  intro l
  induction l with
  | nil => intro acc; simp
  | cons q l ih =>
      intro acc
      simp only [List.foldl_cons, List.filterMap_cons]
      by_cases hn : isImageName q.1
      · rw [if_pos hn, if_pos hn]
        cases hc : compress_and_encode_image env q.2 <;> simp [hc, ih]
      · rw [if_neg hn, if_neg hn]
        simp [ih]

/-- C7: a per-image error (an undecodable file, or any encoder failure
surfacing as None) only omits that image from the asset map: removing a
corrupt image from the listing does not change the asset map at all, and in
general the asset map is exactly the filtered map of the successful
compressions, in listing order — processing always continues over the
remaining images and never aborts the article.  In particular, with one
corrupt and one valid image only the valid image's data URI appears. -/
theorem collectAssets_spec (env : PILEnv) (pre post : List (String × ImageFile))
    (n : String) :
    collectAssets env (pre ++ (n, ImageFile.corrupt) :: post) =
      collectAssets env (pre ++ post) ∧
    collectAssets env (pre ++ post) = (pre ++ post).filterMap (fun q =>
      if isImageName q.1 then
        (compress_and_encode_image env q.2).map (fun uri => (q.1, uri))
      else none) := by
  constructor
  · show (pre ++ (n, ImageFile.corrupt) :: post).foldl _ [] = (pre ++ post).foldl _ []
    rw [collectAssets_foldl, collectAssets_foldl]
    simp [compress_corrupt]
  · show (pre ++ post).foldl _ [] = _
    rw [collectAssets_foldl]
    simp

/-- Readability check: one corrupt plus one valid image yield an asset map
with only the valid image's data URI. -/
example :
    collectAssets envOk [("broken.png", .corrupt), ("ok.png", .valid 10 10 "PNG")] =
      [("ok.png", "data:image/png;base64,")] := by decide

/-! ## Claim C2: manifest generation -/

theorem insertDesc_perm {α : Type} (key : α → Nat) (x : α) (l : List α) :
    List.Perm (insertDesc key x l) (x :: l) := by
  induction l with
  | nil => exact List.Perm.refl _
  | cons y l ih =>
      by_cases h : key x < key y
      · simp only [insertDesc, if_pos h]
        exact (ih.cons y).trans (List.Perm.swap x y l)
      · simp only [insertDesc, if_neg h]
        exact List.Perm.refl _

theorem pySortDesc_perm {α : Type} (key : α → Nat) (l : List α) :
    List.Perm (pySortDesc key l) l := by
  induction l with
  | nil => exact List.Perm.refl _
  | cons x l ih =>
      simp only [pySortDesc]
      exact (insertDesc_perm key x (pySortDesc key l)).trans (ih.cons x)

theorem insertDesc_pairwise {α : Type} (key : α → Nat) (x : α) {l : List α}
    (h : l.Pairwise (fun a b => key b ≤ key a)) :
    (insertDesc key x l).Pairwise (fun a b => key b ≤ key a) := by
  induction l with
  | nil => simp [insertDesc]
  | cons y l ih =>
      rcases List.pairwise_cons.mp h with ⟨hy, hl⟩
      by_cases hk : key x < key y
      · simp only [insertDesc, if_pos hk]
        rw [List.pairwise_cons]
        refine ⟨?_, ih hl⟩
        intro z hz
        have hz2 := (insertDesc_perm key x l).mem_iff.mp hz
        rcases List.mem_cons.mp hz2 with h1 | h2
        · subst h1; exact le_of_lt hk
        · exact hy z h2
      · simp only [insertDesc, if_neg hk]
        rw [List.pairwise_cons]
        refine ⟨?_, h⟩
        intro z hz
        rcases List.mem_cons.mp hz with h1 | h2
        · subst h1; omega
        · have := hy z h2
          omega

theorem pySortDesc_pairwise {α : Type} (key : α → Nat) (l : List α) :
    (pySortDesc key l).Pairwise (fun a b => key b ≤ key a) := by
  induction l with
  | nil => simp [pySortDesc]
  | cons x l ih =>
      simp only [pySortDesc]
      exact insertDesc_pairwise key x ih

theorem insertDesc_filter_eq {α : Type} (key : α → Nat) (x : α) (l : List α)
    (k : Nat) :
    (insertDesc key x l).filter (fun a => key a == k) =
      if key x == k then x :: l.filter (fun a => key a == k)
      else l.filter (fun a => key a == k) := by
  induction l with
  | nil =>
      by_cases hk : key x == k
      · simp [insertDesc, hk]
      · simp [insertDesc, hk]
  | cons y l ih =>
      by_cases hlt : key x < key y
      · simp only [insertDesc, if_pos hlt]
        rw [List.filter_cons, List.filter_cons]
        by_cases hky : key y == k
        · have hkx : ¬ (key x == k) := by
            simp only [beq_iff_eq] at hky ⊢
            omega
          rw [if_pos hky, if_pos hky, if_neg hkx, ih, if_neg hkx]
        · rw [if_neg hky, if_neg hky, ih]
      · simp only [insertDesc, if_neg hlt]
        rw [List.filter_cons]

theorem pySortDesc_stable {α : Type} (key : α → Nat) (l : List α) (k : Nat) :
    (pySortDesc key l).filter (fun a => key a == k) =
      l.filter (fun a => key a == k) := by
  induction l with
  | nil => rfl
  | cons x l ih =>
      simp only [pySortDesc]
      rw [insertDesc_filter_eq, List.filter_cons]
      by_cases hkx : key x == k
      · rw [if_pos hkx, if_pos hkx, ih]
      · rw [if_neg hkx, if_neg hkx, ih]

/-- C2: when every collected entry's date parses, manifest generation sorts
the entries by parsed date in descending order with a stable sort — the
output is a permutation of the input, pairwise nonincreasing in the date
key, and entries with equal keys keep their original encounter order — and
writes the full sorted list as the full manifest, exactly the first 10
entries of the sorted list as the latest manifest, and the subsequence of
sorted entries whose category equals news (resp. reviews) as that
category's manifest. -/
theorem generate_manifests_spec (articles : List ManifestEntry)
    (h : ∀ a ∈ articles, (fromisoformatV a.date).isSome = true) :
    generate_manifests articles =
      some [⟨COMPRESSED_DIR ++ "/full_manifest.json", pySortDesc sortKey articles⟩,
            ⟨COMPRESSED_DIR ++ "/latest_manifest.json",
              (pySortDesc sortKey articles).take 10⟩,
            ⟨COMPRESSED_DIR ++ "/news_manifest.json",
              (pySortDesc sortKey articles).filter (fun a => a.category == "news")⟩,
            ⟨COMPRESSED_DIR ++ "/reviews_manifest.json",
              (pySortDesc sortKey articles).filter (fun a => a.category == "reviews")⟩] ∧
    List.Perm (pySortDesc sortKey articles) articles ∧
    (pySortDesc sortKey articles).Pairwise (fun a b => sortKey b ≤ sortKey a) ∧
    ∀ k, (pySortDesc sortKey articles).filter (fun a => sortKey a == k) =
      articles.filter (fun a => sortKey a == k) := by
  refine ⟨?_, pySortDesc_perm _ _, pySortDesc_pairwise _ _,
    fun k => pySortDesc_stable _ _ k⟩
  unfold generate_manifests
  rw [if_pos (List.all_eq_true.mpr h)]

/-- Concrete entries for the C2 witness: the spec's own example — articles
dated 2024-01-01, 2024-03-01, 2024-02-01 in categories news, reviews,
news. -/
def entJan : ManifestEntry :=
  ⟨"id1", "news", .vStr "Jan", .vStr "2024-01-01", .vList [], .vStr "Unknown"⟩

/-- Second entry of the C2 witness. -/
def entMar : ManifestEntry :=
  ⟨"id2", "reviews", .vStr "Mar", .vStr "2024-03-01", .vList [], .vStr "Unknown"⟩

/-- Third entry of the C2 witness. -/
def entFeb : ManifestEntry :=
  ⟨"id3", "news", .vStr "Feb", .vStr "2024-02-01", .vList [], .vStr "Unknown"⟩

/-- Witness for C2 at the spec's three-article example. -/
theorem generate_manifests_spec_witness :
    generate_manifests [entJan, entMar, entFeb] =
      some [⟨COMPRESSED_DIR ++ "/full_manifest.json",
              pySortDesc sortKey [entJan, entMar, entFeb]⟩,
            ⟨COMPRESSED_DIR ++ "/latest_manifest.json",
              (pySortDesc sortKey [entJan, entMar, entFeb]).take 10⟩,
            ⟨COMPRESSED_DIR ++ "/news_manifest.json",
              (pySortDesc sortKey [entJan, entMar, entFeb]).filter
                (fun a => a.category == "news")⟩,
            ⟨COMPRESSED_DIR ++ "/reviews_manifest.json",
              (pySortDesc sortKey [entJan, entMar, entFeb]).filter
                (fun a => a.category == "reviews")⟩] ∧
    List.Perm (pySortDesc sortKey [entJan, entMar, entFeb]) [entJan, entMar, entFeb] ∧
    (pySortDesc sortKey [entJan, entMar, entFeb]).Pairwise
      (fun a b => sortKey b ≤ sortKey a) ∧
    (pySortDesc sortKey [entJan, entMar, entFeb]).filter
        (fun a => sortKey a == sortKey entJan) =
      [entJan, entMar, entFeb].filter (fun a => sortKey a == sortKey entJan) :=
  have h := generate_manifests_spec [entJan, entMar, entFeb] (by decide)
  ⟨h.1, h.2.1, h.2.2.1, h.2.2.2 (sortKey entJan)⟩

/-- Readability check: the full sort lists March, February, January; the
news filter keeps March ... February and January in that order. -/
example :
    pySortDesc sortKey [entJan, entMar, entFeb] = [entMar, entFeb, entJan] ∧
    (pySortDesc sortKey [entJan, entMar, entFeb]).filter
      (fun a => a.category == "news") = [entFeb, entJan] := by decide

/-! ## Claims C6 and C10: skip conditions and the date-sort exception -/

/-- C6: an article folder that lacks article.md, or whose frontmatter fails
to parse, or whose parsed metadata has a falsy (missing or empty) title or
date, is skipped: per-article processing returns no summary and performs no
file write — so the article cannot appear in any manifest, since manifests
are built only from returned summaries — and the category loop over the
remaining folders computes exactly what it would have computed without that
folder.  No exception escapes the per-article boundary: the model of the
boundary is a total function. -/
theorem process_article_skip (env : PILEnv) (dir : ArticleDir) (category : String)
    (h : dir.articleMd = none ∨
      (∃ raw, dir.articleMd = some raw ∧ frontmatter_loads raw = .error ()) ∨
      (∃ raw m c, dir.articleMd = some raw ∧ frontmatter_loads raw = .ok (m, c) ∧
        (truthy (mget m "title") = false ∨ truthy (mget m "date") = false))) :
    process_article env dir category = (none, []) ∧
    ∀ (pre post : List ArticleDir),
      collectCat env (pre ++ dir :: post) category =
        collectCat env (pre ++ post) category := by
  have h1 : process_article env dir category = (none, []) := by
    rcases h with h | ⟨raw, hraw, herr⟩ | ⟨raw, m, c, hraw, hok, hfalsy⟩
    · simp [process_article, h]
    · simp [process_article, hraw, herr]
    · have hcond : (truthy (mget m "title") && truthy (mget m "date")) = false := by
        rcases hfalsy with hf | hf <;> simp [hf]
      simp [process_article, hraw, hok, hcond]
  refine ⟨h1, ?_⟩
  intro pre post
  show List.foldl _ ([], []) (pre ++ dir :: post) =
    List.foldl _ ([], []) (pre ++ post)
  rw [List.foldl_append, List.foldl_append, List.foldl_cons]
  congr 1
  simp [collectStep, h1]

/-- A well-formed article used to show that the run continues around a
skipped folder. -/
def rawGood : String := "---\ntitle: Hi\ndate: 2024-01-02\n---\n"

/-- The folder of the well-formed article. -/
def dirGood : ArticleDir := ⟨"good", some rawGood, []⟩

/-- Witness for C6: a folder without article.md is skipped, and the
category loop over a listing containing it equals the loop without it (the
well-formed neighbour is still processed). -/
theorem process_article_skip_witness :
    process_article envOk ⟨"no-md", none, []⟩ "news" = (none, []) ∧
    collectCat envOk ([dirGood] ++ ⟨"no-md", none, []⟩ :: []) "news" =
      collectCat envOk ([dirGood] ++ []) "news" :=
  have h := process_article_skip envOk ⟨"no-md", none, []⟩ "news" (Or.inl rfl)
  ⟨h.1, h.2 [dirGood] []⟩

/-- Readability check: the skipped folder is absent while its well-formed
neighbour is processed. -/
example :
    ((collectCat envOk [⟨"no-md", none, []⟩, dirGood] "news").1.map
      (fun e => e.title)) = [Value.vStr "Hi"] := by decide

/-- The C10 article: valid title, quoted non-ISO date. -/
def rawBadDate : String := "---\ntitle: Hi\ndate: 'next friday'\n---\nBody"

/-- The folder of the C10 article. -/
def dirBadDate : ArticleDir := ⟨"myart", some rawBadDate, []⟩

/-- C10: a valid article whose quoted frontmatter date string is not
ISO-8601 parseable passes per-article validation (a nonempty string is
truthy) and compiles — the summary is returned and the article's JSON write
performed — but the sort key computation `datetime.fromisoformat` of
manifest generation raises on it, so manifest generation performs no write
and the run ends in the raised state with no manifest file written. -/
theorem unparseable_quoted_date_aborts_manifests :
    (process_article envOk dirBadDate "news").1 =
      some ⟨uniqueId "myart" rawBadDate, "news", .vStr "Hi",
        .vStr "next friday", .vList [], .vStr "Unknown"⟩ ∧
    (process_article envOk dirBadDate "news").2.length = 1 ∧
    generate_manifests [⟨uniqueId "myart" rawBadDate, "news", .vStr "Hi",
      .vStr "next friday", .vList [], .vStr "Unknown"⟩] = none ∧
    (mainRun envOk ⟨some [dirBadDate], none⟩).2 = RunOutcome.raised := by
  exact ⟨by decide, by decide, by decide, by decide⟩

/-! ## Claim C8: manifest entries and on-disk files -/

/-- The compiled-article file path of a manifest entry:
`compressed/<category>/<id>.json`. -/
def entryPath (e : ManifestEntry) : String :=
  COMPRESSED_DIR ++ "/" ++ e.category ++ "/" ++ e.id ++ ".json"

/-- The final content at a path after a sequence of whole-file writes: the
last write to the path wins. -/
def fileAt (writes : List (String × ArticleJson)) (p : String) :
    Option ArticleJson :=
  ((writes.filter (fun w => w.1 == p)).getLast?).map (fun w => w.2)

/-- Whether a manifest entry corresponds to a compiled-article JSON file on
disk that is the compiled form of the entry's own article: the file at the
entry's path exists, carries the entry's identifier, and its metadata title
is the entry's title. -/
def corresponds (writes : List (String × ArticleJson)) (e : ManifestEntry) :
    Bool :=
  match fileAt writes (entryPath e) with
  | some j => j.id == e.id && (mget j.metadata "title" == some e.title)
  | none => false

/-- The entries of the full manifest of a finished run (empty when the run
wrote no manifests). -/
def fullManifestEntries (out : RunOutcome) : List ManifestEntry :=
  match out with
  | .ok (w :: _) => w.entries
  | _ => []

theorem truthy_isSome {o : Option Value} (h : truthy o = true) :
    ∃ v, o = some v := by
  cases o with
  | none => simp [truthy] at h
  | some v => exact ⟨v, rfl⟩

theorem mget_map (m : Metadata) (f : Value → Value) (k : String) :
    mget (m.map (fun q => (q.1, f q.2))) k = (mget m k).map f := by
  induction m with
  | nil => rfl
  | cons q m ih =>
      simp only [List.map_cons, mget]
      by_cases hq : (q.1 == k) = true
      · rw [List.find?_cons_of_pos _ (by simpa using hq),
          List.find?_cons_of_pos _ (by simpa using hq)]
        simp
      · rw [List.find?_cons_of_neg _ (by simpa using hq),
          List.find?_cons_of_neg _ (by simpa using hq)]
        exact ih

/-- Shape of a successful per-article run: exactly one write, at the
returned entry's path, of a document carrying the entry's identifier whose
metadata title is the entry's title. -/
theorem process_article_shape (env : PILEnv) (dir : ArticleDir) (cat : String)
    {e : ManifestEntry} (he : (process_article env dir cat).1 = some e) :
    (process_article env dir cat).2.map Prod.fst = [entryPath e] ∧
    ∀ w ∈ (process_article env dir cat).2,
      w.1 = entryPath e ∧ w.2.id = e.id ∧
        mget w.2.metadata "title" = some e.title := by
  cases hmd : dir.articleMd with
  | none => simp [process_article, hmd] at he
  | some raw =>
      cases hfm : frontmatter_loads raw with
      | error err => simp [process_article, hmd, hfm] at he
      | ok mc =>
          obtain ⟨m, c⟩ := mc
          by_cases hcond : (truthy (mget m "title") && truthy (mget m "date")) = true
          · have htt : truthy (mget m "title") = true := by
              have hc2 := hcond
              simp only [Bool.and_eq_true] at hc2
              exact hc2.1
            obtain ⟨tv, htv⟩ := truthy_isSome htt
            have htitle2 : mget (m.map (fun q => (q.1, serialize_date q.2))) "title" =
                some (serialize_date tv) := by
              rw [mget_map, htv]; rfl
            simp only [process_article, hmd, hfm, if_pos hcond] at he ⊢
            have he2 := Option.some.injEq _ _ ▸ he
            rw [Option.some.injEq] at he
            subst he
            refine ⟨by simp [entryPath], ?_⟩
            intro w hw
            simp only [List.mem_singleton] at hw
            subst hw
            refine ⟨by simp [entryPath], rfl, ?_⟩
            rw [htitle2]
            simp [htitle2]
          · simp [process_article, hmd, hfm, hcond] at he

/-- Invariant of the category loop: every collected summary has a matching
write among the collected writes. -/
theorem collectCat_mem_aux (env : PILEnv) (cat : String) :
    ∀ (dirs : List ArticleDir)
      (acc : List ManifestEntry × List (String × ArticleJson)),
      (∀ e ∈ acc.1, ∃ w ∈ acc.2, w.1 = entryPath e ∧ w.2.id = e.id ∧
        mget w.2.metadata "title" = some e.title) →
      ∀ e ∈ (dirs.foldl (collectStep env cat) acc).1,
        ∃ w ∈ (dirs.foldl (collectStep env cat) acc).2,
          w.1 = entryPath e ∧ w.2.id = e.id ∧
            mget w.2.metadata "title" = some e.title := by
  intro dirs
  induction dirs with
  | nil => intro acc hacc; exact hacc
  | cons d dirs ih =>
      intro acc hacc
      rw [List.foldl_cons]
      apply ih
      intro e he
      cases hpr : (process_article env d cat).1 with
      | none =>
          simp only [collectStep, hpr] at he ⊢
          obtain ⟨w, hw, hprops⟩ := hacc e he
          exact ⟨w, List.mem_append_left _ hw, hprops⟩
      | some e2 =>
          simp only [collectStep, hpr] at he ⊢
          rcases List.mem_append.mp he with hold | hnew
          · obtain ⟨w, hw, hprops⟩ := hacc e hold
            exact ⟨w, List.mem_append_left _ hw, hprops⟩
          · have he2 : e = e2 := by simpa using hnew
            subst he2
            obtain ⟨hmap, hall⟩ := process_article_shape env d cat hpr
            have hne : (process_article env d cat).2 ≠ [] := by
              intro hcontra
              rw [hcontra] at hmap
              simp at hmap
            obtain ⟨w, hw⟩ := List.exists_mem_of_ne_nil _ hne
            exact ⟨w, List.mem_append_right _ hw, hall w hw⟩

theorem collectCat_mem (env : PILEnv) (dirs : List ArticleDir) (cat : String) :
    ∀ e ∈ (collectCat env dirs cat).1,
      ∃ w ∈ (collectCat env dirs cat).2, w.1 = entryPath e ∧ w.2.id = e.id ∧
        mget w.2.metadata "title" = some e.title :=
  collectCat_mem_aux env cat dirs ([], []) (by intro e he; cases he)

/-- Every summary of the processing pass has a matching write among the
pass's writes. -/
theorem mainPass_mem (env : PILEnv) (root : ContentRoot) :
    ∀ e ∈ (mainPass env root).1,
      ∃ w ∈ (mainPass env root).2, w.1 = entryPath e ∧ w.2.id = e.id ∧
        mget w.2.metadata "title" = some e.title := by
  intro e he
  obtain ⟨nws, rvs⟩ := root
  cases nws with
  | none =>
      cases rvs with
      | none => simp [mainPass] at he
      | some ds =>
          simp only [mainPass, List.nil_append] at he ⊢
          obtain ⟨w, hw, hprops⟩ := collectCat_mem env ds "reviews" e he
          exact ⟨w, hw, hprops⟩
  | some ds1 =>
      cases rvs with
      | none =>
          simp only [mainPass, List.append_nil] at he ⊢
          obtain ⟨w, hw, hprops⟩ := collectCat_mem env ds1 "news" e he
          exact ⟨w, hw, hprops⟩
      | some ds2 =>
          simp only [mainPass] at he ⊢
          rcases List.mem_append.mp he with h1 | h2
          · obtain ⟨w, hw, hprops⟩ := collectCat_mem env ds1 "news" e h1
            exact ⟨w, List.mem_append_left _ hw, hprops⟩
          · obtain ⟨w, hw, hprops⟩ := collectCat_mem env ds2 "reviews" e h2
            exact ⟨w, List.mem_append_right _ hw, hprops⟩

/-- A run that ended with manifests: its writes are the pass's writes and
the manifests are the generation's output on the pass's summaries. -/
theorem mainRun_ok {env : PILEnv} {root : ContentRoot} {ms : List ManifestWrite}
    (hok : (mainRun env root).2 = RunOutcome.ok ms) :
    (mainRun env root).1 = (mainPass env root).2 ∧
    generate_manifests (mainPass env root).1 = some ms := by
  by_cases hemp : (mainPass env root).1.isEmpty
  · simp only [mainRun, if_pos hemp] at hok
    cases hok
  · simp only [mainRun, if_neg hemp] at hok ⊢
    cases hg : generate_manifests (mainPass env root).1 with
    | some ms2 =>
        rw [hg] at hok
        dsimp only at hok ⊢
        cases hok
        exact ⟨rfl, rfl⟩
    | none =>
        rw [hg] at hok
        dsimp only at hok
        cases hok

/-- Every entry of every written manifest is one of the collected
summaries. -/
theorem generate_manifests_mem {articles : List ManifestEntry}
    {ms : List ManifestWrite} (hg : generate_manifests articles = some ms)
    {mw : ManifestWrite} (hmw : mw ∈ ms) {e : ManifestEntry}
    (he : e ∈ mw.entries) : e ∈ articles := by
  by_cases hall : articles.all (fun a => (fromisoformatV a.date).isSome) = true
  · rw [generate_manifests, if_pos hall] at hg
    rw [Option.some.injEq] at hg
    subst hg
    have hperm := pySortDesc_perm sortKey articles
    simp only [List.mem_cons, List.not_mem_nil, or_false] at hmw
    rcases hmw with h1 | h2 | h3 | h4
    · subst h1; exact hperm.mem_iff.mp he
    · subst h2; exact hperm.mem_iff.mp (List.take_subset _ _ he)
    · subst h3; exact hperm.mem_iff.mp (List.mem_of_mem_filter he)
    · subst h4; exact hperm.mem_iff.mp (List.mem_of_mem_filter he)
  · rw [generate_manifests, if_neg hall] at hg
    cases hg

/-- In a write list with pairwise distinct paths, filtering on the path of
a present write yields exactly that write. -/
theorem filter_key_single {β : Type} (l : List (String × β))
    (hnd : (l.map Prod.fst).Nodup) {w : String × β} (hw : w ∈ l) :
    l.filter (fun q => q.1 == w.1) = [w] := by
  induction l with
  | nil => cases hw
  | cons x l ih =>
      rw [List.map_cons, List.nodup_cons] at hnd
      obtain ⟨hx, hnd2⟩ := hnd
      rcases List.mem_cons.mp hw with hwx | hw2
      · subst hwx
        rw [List.filter_cons, if_pos (by simp)]
        have hnil : l.filter (fun q => q.1 == w.1) = [] := by
          rw [List.filter_eq_nil_iff]
          intro q hq
          simp only [beq_iff_eq]
          intro hcontra
          exact hx (hcontra ▸ List.mem_map_of_mem Prod.fst hq)
        rw [hnil]
      · rw [List.filter_cons, if_neg ?hne]
        case hne =>
          simp only [beq_iff_eq]
          intro hcontra
          exact hx (hcontra ▸ List.mem_map_of_mem Prod.fst hw2)
        exact ih hnd2 hw2

/-- C8 amended: after a complete run whose article writes hit pairwise
distinct paths (equivalently, whose processed articles have pairwise
distinct (category, identifier) pairs), every entry of every written
manifest corresponds to exactly one compiled-article JSON file on disk at
compressed/category/id.json: exactly one write went to the entry's path,
and the document there carries the entry's identifier and title.  The
original claim asserts this for all inputs including identifier collisions;
there it fails — see the counterexample, where two articles' writes
silently overwrite one shared path. -/
theorem manifest_file_correspondence (env : PILEnv) (root : ContentRoot)
    (ms : List ManifestWrite) (hok : (mainRun env root).2 = RunOutcome.ok ms)
    (hnodup : ((mainRun env root).1.map Prod.fst).Nodup)
    (mw : ManifestWrite) (hmw : mw ∈ ms) (e : ManifestEntry)
    (he : e ∈ mw.entries) :
    ((mainRun env root).1.filter (fun w => w.1 == entryPath e)).length = 1 ∧
    corresponds (mainRun env root).1 e = true := by
  obtain ⟨hw1, hg⟩ := mainRun_ok hok
  rw [hw1] at hnodup ⊢
  have hmem := generate_manifests_mem hg hmw he
  obtain ⟨w, hwmem, hpath, hid, htitle⟩ := mainPass_mem env root e hmem
  have hfilter : (mainPass env root).2.filter (fun q => q.1 == entryPath e) = [w] := by
    have hsingle := filter_key_single (mainPass env root).2 hnodup hwmem
    rw [hpath] at hsingle
    exact hsingle
  constructor
  · rw [hfilter]
    rfl
  · unfold corresponds fileAt
    rw [hfilter]
    simp [hid, htitle]

/-- The manifest entry of the `dirGood` article. -/
def entGood : ManifestEntry :=
  ⟨uniqueId "good" rawGood, "news", .vStr "Hi", .vStr "2024-01-02",
    .vList [], .vStr "Unknown"⟩

/-- The manifest writes of the one-article `dirGood` run. -/
def msGood : List ManifestWrite :=
  [⟨"compressed/full_manifest.json", [entGood]⟩,
   ⟨"compressed/latest_manifest.json", [entGood]⟩,
   ⟨"compressed/news_manifest.json", [entGood]⟩,
   ⟨"compressed/reviews_manifest.json", []⟩]

set_option maxRecDepth 1000000 in
/-- Witness for C8 amended, on a collision-free one-article run. -/
theorem manifest_file_correspondence_witness :
    ((mainRun envOk ⟨some [dirGood], none⟩).1.filter
      (fun w => w.1 == entryPath entGood)).length = 1 ∧
    corresponds (mainRun envOk ⟨some [dirGood], none⟩).1 entGood = true :=
  manifest_file_correspondence envOk ⟨some [dirGood], none⟩ msGood
    (by decide) (by decide) ⟨"compressed/full_manifest.json", [entGood]⟩
    (by decide) entGood (by decide)

/-- Raw content of the first colliding article. -/
def rawColl1 : String := "---\ntitle: t00aac172\ndate: 2024-01-02\n---\n"

/-- Raw content of the second colliding article. -/
def rawColl2 : String := "---\ntitle: t014f385a\ndate: 2024-01-02\n---\n"

/-- The first colliding article folder. -/
def dirColl1 : ArticleDir := ⟨"a00aac172", some rawColl1, []⟩

/-- The second colliding article folder. -/
def dirColl2 : ArticleDir := ⟨"a014f385a", some rawColl2, []⟩

/-- A content tree holding exactly the two colliding articles, in the same
category. -/
def rootColl : ContentRoot := ⟨some [dirColl1, dirColl2], none⟩

/-- The manifest entry the run produces for the first colliding article. -/
def entColl1 : ManifestEntry :=
  ⟨"8eaa7b5d62a0", "news", .vStr "t00aac172", .vStr "2024-01-02",
    .vList [], .vStr "Unknown"⟩

set_option maxRecDepth 1000000 in
/-- C8 counterexample: two distinct article folders — distinct names, raw
contents and titles — whose MD5 identifiers share the same first 12 hex
characters (an actual MD5 48-bit prefix collision found by birthday
search).  The run collects two manifest entries but performs both article
writes to one and the same path; the surviving file is the second article's
compiled document, so the first article's entry, although present in the
full manifest, does not correspond to a compiled file of its own — the
claimed invariant fails on identifier-colliding inputs. -/
theorem manifest_file_collision_counterexample :
    dirColl1.name ≠ dirColl2.name ∧
    rawColl1 ≠ rawColl2 ∧
    uniqueId dirColl1.name rawColl1 = uniqueId dirColl2.name rawColl2 ∧
    entColl1 ∈ fullManifestEntries (mainRun envOk rootColl).2 ∧
    (mainRun envOk rootColl).1.map Prod.fst =
      [entryPath entColl1, entryPath entColl1] ∧
    corresponds (mainRun envOk rootColl).1 entColl1 = false := by
  refine ⟨by decide, by decide, by decide, by decide, by decide, by decide⟩

end Compressor
